import Mathlib

/-!
# Word ladder search (`WordConverter`, main.cpp)

A shallow embedding of the class `WordConverter` of `main.cpp` and a
verification of its contract.

* A `std::string` is the list of its bytes (`Word`), a byte being a `Nat`.
* The dictionary stream is the list of the bytes it holds; `std::getline`
  cuts it at the byte 10.
* `std::vector` is `List`; the parallel array `_isWordUsed` is a `List Int`
  holding `-1` for a word no wave has reached.
* The counter of `wordDistance` is an `unsigned int`, taken as 32 bits wide:
  its additions are modulo `2 ^ 32`. The other integers of the code (wave
  numbers below `nMaxIter`, indices of vectors) stay in range.
* A thrown exception is the `Except.error` of the matching `Error`.
* `DoWork` writes the member `_isWordUsed`, so its embedding returns the
  converter after the call next to the outcome.
-/

namespace WordLadder

/-- The bytes of a `std::string`. -/
abbrev Word := List Nat

/-- The failures of the constructor and of `DoWork`: the three exceptions
thrown by the code, the iteration cap, and the out-of-range read
`_dict[(size_t)-1]` of `getResult` (no predecessor found). -/
inductive Error where
  | InvalidInput
  | WordNotFound
  | NoPath
  | IterationLimitExceeded
  | ReconstructionInvariantViolation
  deriving DecidableEq, Repr

/-- The members of the class `WordConverter`. -/
structure WordConverter where
  _dict : List Word
  _isWordUsed : List Int
  _sourceWordIndex : Nat
  _targetWordIndex : Nat
  deriving DecidableEq, Repr

/-- The constant `static const int _invalidIsWordUsed = -1`. -/
def _invalidIsWordUsed : Int := -1

/-- The constant `static const int _maxWordDistance = 1`. -/
def _maxWordDistance : Nat := 1

/-- The cap `size_t nMaxIter = 10000` of `DoWork`. -/
def nMaxIter : Nat := 10000

/-- The lines `std::getline` hands out while `!dictStream.eof()`: the stream
is cut at every byte 10; a stream that ends in a newline (and the empty
stream) gives a last, empty line, read by the `getline` that hits the end. -/
def readLines : List Nat → List Word
  | [] => [[]]
  | c :: cs =>
    if c = 10 then [] :: readLines cs
    else
      match readLines cs with
      | [] => [[c]]
      | w :: ws => (c :: w) :: ws

/-- The `operator<` of `std::string`: lexicographic on the bytes, a proper prefix
being smaller. -/
def wordLt : Word → Word → Bool
  | [], [] => false
  | [], _ :: _ => true
  | _ :: _, [] => false
  | a :: as, b :: bs => if a < b then true else if b < a then false else wordLt as bs

/-- The order `std::sort` sorts by: `a` may stand before `b` when `b < a`
does not hold. -/
def wordLe (a b : Word) : Prop := wordLt b a = false

instance wordLe_decidable : DecidableRel wordLe := fun a b =>
  inferInstanceAs (Decidable (wordLt b a = false))

/-- The function `fillDictionary`: every line of the stream whose size is `wordLen` is
pushed back, in the order read, and the vector is sorted. `std::sort` is
rendered by insertion sort: on strings the sorted arrangement of a vector
is unique, so every sorting algorithm gives this list. -/
def fillDictionary (dictStream : List Nat) (wordLen : Nat) : List Word :=
  List.insertionSort wordLe
    ((readLines dictStream).foldl
      (fun dict word => if word.length ≠ wordLen then dict else dict ++ [word]) [])

/-- The scan of `getWordIndex` from index `i` on: the first index whose word
equals `word`. -/
def getWordIndexFrom (word : Word) : List Word → Nat → Except Error Nat
  | [], _ => .error .WordNotFound
  | w :: ws, i => if w = word then .ok i else getWordIndexFrom word ws (i + 1)

/-- The function `getWordIndex`: the first index of `word` in `_dict`, or the exception
"Dictionary should contain source and target words". -/
def getWordIndex (dict : List Word) (word : Word) : Except Error Nat :=
  getWordIndexFrom word dict 0

/-- The loop of `wordDistance` from the value `dist` of its counter on:
`dist += ((w1[i] - w2[i]) != 0)` for every position. The counter is an
`unsigned int`, of 32 bits, so every addition is taken modulo `2 ^ 32`
(4294967296). -/
def wordDistanceLoop (dist : Nat) : Word → Word → Nat
  | c1 :: w1, c2 :: w2 =>
    wordDistanceLoop
      ((dist + (if (c1 : Int) - (c2 : Int) ≠ 0 then 1 else 0)) % 4294967296) w1 w2
  | _, _ => dist

/-- The function `wordDistance`: the number of positions at which the two
words differ, counted in an `unsigned int` from 0 on, so modulo `2 ^ 32`.
The code asserts `w1.size() == w2.size()`; every call is on two words of the
dictionary, which have the same size. -/
def wordDistance (w1 w2 : Word) : Nat :=
  wordDistanceLoop 0 w1 w2

/-- The Hamming distance of the spec: the number of positions at which the
two words differ, as a natural number. -/
def hammingDistance : Word → Word → Nat
  | c1 :: w1, c2 :: w2 => (if c1 ≠ c2 then 1 else 0) + hammingDistance w1 w2
  | _, _ => 0

/-- The function `getSimilarWords`: for every index of the wave, in order, the indices
`i` of the dictionary, in order, that are not used yet and whose word is at
distance at most `_maxWordDistance` of the wave's word. -/
def getSimilarWords (dict : List Word) (isWordUsed : List Int)
    (wordIndexes : List Nat) : List Nat :=
  wordIndexes.flatMap (fun wordIndex =>
    let currentWord := dict.getD wordIndex []
    (List.range dict.length).filter (fun i =>
      if isWordUsed.getD i _invalidIsWordUsed ≠ _invalidIsWordUsed then false
      else decide (wordDistance currentWord (dict.getD i []) ≤ _maxWordDistance)))

/-- The function `markAsUsed`: `_isWordUsed[i] = waveIndex` for every index of the wave. -/
def markAsUsed (isWordUsed : List Int) (wordIndexes : List Nat) (waveIndex : Nat) :
    List Int :=
  wordIndexes.foldl (fun used i => used.set i (waveIndex : Int)) isWordUsed

/-- The function `isResultAchieved`: the target index is among the indices of the wave. -/
def isResultAchieved (targetWordIndex : Nat) (wordIndexes : List Nat) : Bool :=
  wordIndexes.contains targetWordIndex

/-- The inner loop of `getResult`: the first index `j` whose wave number is
`wave` and whose word is at distance at most `_maxWordDistance` of `word`;
`none` stands for `lastWordIndex = -1`. -/
def findPrevious (dict : List Word) (isWordUsed : List Int) (word : Word) (wave : Int) :
    Option Nat :=
  (List.range isWordUsed.length).find? (fun j =>
    decide (isWordUsed.getD j _invalidIsWordUsed = wave) &&
      decide (wordDistance word (dict.getD j []) ≤ _maxWordDistance))

/-- The outer loop of `getResult`, `for (int i = ...; i >= 0; --i)`, from
the value `i` of the counter on: `result[i]` receives the word at
`lastWordIndex`, and the predecessor of wave `i - 1` is looked up. Reading
`_dict[lastWordIndex]` out of range is the error
`ReconstructionInvariantViolation`. At `i = 0` the code runs the inner loop
once more, but `lastWordIndex` is not read after it, so the last lookup is
left out. -/
def getResultLoop (dict : List Word) (isWordUsed : List Int) :
    Nat → Option Nat → List Word → Except Error (List Word)
  | 0, lastWordIndex, result =>
    match lastWordIndex.bind (fun l => dict.get? l) with
    | none => .error .ReconstructionInvariantViolation
    | some word => .ok (result.set 0 word)
  | i + 1, lastWordIndex, result =>
    match lastWordIndex.bind (fun l => dict.get? l) with
    | none => .error .ReconstructionInvariantViolation
    | some word =>
      getResultLoop dict isWordUsed i
        (findPrevious dict isWordUsed word (((i + 1 : Nat) : Int) - 1))
        (result.set (i + 1) word)

/-- The function `getResult`: a vector of `lastWaveIndex + 1` empty strings,
filled from the target backwards. The code asserts that the target has a
wave number; `DoWork` calls it right after marking the wave of the target. -/
def getResult (dict : List Word) (isWordUsed : List Int) (targetWordIndex : Nat) :
    Except Error (List Word) :=
  let lastWaveIndex := (isWordUsed.getD targetWordIndex _invalidIsWordUsed).toNat
  getResultLoop dict isWordUsed lastWaveIndex (some targetWordIndex)
    (List.replicate (lastWaveIndex + 1) [])

/-- The loop of `DoWork`, `for (waveIndex = ...; waveIndex < nMaxIter; ++waveIndex)`,
with `remaining = nMaxIter - waveIndex` iterations to go. It gives back
`_isWordUsed` as the run leaves it, and the outcome. -/
def doWorkLoop (dict : List Word) (targetWordIndex : Nat) :
    Nat → Nat → List Int → List Nat → List Int × Except Error (List Word)
  | 0, _, isWordUsed, _ => (isWordUsed, .error .IterationLimitExceeded)
  | remaining + 1, waveIndex, isWordUsed, waveWords =>
    let isWordUsed := markAsUsed isWordUsed waveWords waveIndex
    if isResultAchieved targetWordIndex waveWords then
      (isWordUsed, getResult dict isWordUsed targetWordIndex)
    else
      let waveWords := getSimilarWords dict isWordUsed waveWords
      if waveWords.length = 0 then (isWordUsed, .error .NoPath)
      else doWorkLoop dict targetWordIndex remaining (waveIndex + 1) isWordUsed waveWords

/-- The constructor `WordConverter(sourceWord, targerWord, dictStream)`. -/
def WordConverter.new (sourceWord targerWord : Word) (dictStream : List Nat) :
    Except Error WordConverter :=
  if sourceWord.length ≠ targerWord.length then .error .InvalidInput
  else
    let dict := fillDictionary dictStream sourceWord.length
    match getWordIndex dict targerWord with
    | .error e => .error e
    | .ok targetWordIndex =>
      match getWordIndex dict sourceWord with
      | .error e => .error e
      | .ok sourceWordIndex =>
        .ok { _dict := dict, _isWordUsed := [], _sourceWordIndex := sourceWordIndex,
              _targetWordIndex := targetWordIndex }

/-- The function `DoWork`: the converter after the call, and the path or the error. -/
def WordConverter.DoWork (wc : WordConverter) : WordConverter × Except Error (List Word) :=
  let r := doWorkLoop wc._dict wc._targetWordIndex nMaxIter 0
    (List.replicate wc._dict.length (-1)) [wc._sourceWordIndex]
  ({ wc with _isWordUsed := r.1 }, r.2)

/-- The whole run: construct the converter, call `DoWork` once, keep the
outcome. -/
def run (sourceWord targerWord : Word) (dictStream : List Nat) : Except Error (List Word) :=
  match WordConverter.new sourceWord targerWord dictStream with
  | .error e => .error e
  | .ok wc => wc.DoWork.2

/-- Two indices of the dictionary are neighbours when their words are at
distance at most `_maxWordDistance`: the test of `getSimilarWords` and of
`getResult`. -/
def adjacent (dict : List Word) (i j : Nat) : Prop :=
  wordDistance (dict.getD i []) (dict.getD j []) ≤ _maxWordDistance

/-- The relation `Reach dict src k i`: the index `i` is reached from the index `src` in
`k` steps, each between two neighbours of the dictionary. -/
inductive Reach (dict : List Word) (src : Nat) : Nat → Nat → Prop
  | source : src < dict.length → Reach dict src 0 src
  | step {k i j : Nat} : Reach dict src k i → j < dict.length → adjacent dict i j →
      Reach dict src (k + 1) j

/-- The state of `DoWork` right after `markAsUsed(waveWords, k)`: the wave
numbers written so far are the depths of the breadth-first search from
`src`, and `wave` holds the indices of depth `k`. -/
structure BfsInv (dict : List Word) (src k : Nat) (used : List Int) (wave : List Nat) :
    Prop where
  length_eq : used.length = dict.length
  wave_iff : ∀ i, i ∈ wave ↔ i < dict.length ∧ used.getD i _invalidIsWordUsed = (k : Int)
  marked : ∀ i, i < dict.length →
    used.getD i _invalidIsWordUsed = -1 ∨
      ∃ d : Nat, d ≤ k ∧ used.getD i _invalidIsWordUsed = (d : Int)
  sound : ∀ i (d : Nat), i < dict.length → used.getD i _invalidIsWordUsed = (d : Int) →
    Reach dict src d i ∧ ∀ d', d' < d → ¬ Reach dict src d' i
  complete : ∀ i, Reach dict src k i → used.getD i _invalidIsWordUsed ≠ -1
  levels : ∀ m, m ≤ k → ∃ i, i < dict.length ∧ used.getD i _invalidIsWordUsed = (m : Int)

/-- A ladder of the dictionary from `source` to `target`, by the test of
the code: a sequence of words of `dict` that starts at `source`, ends at
`target`, and whose consecutive words are at `wordDistance` at most 1. -/
def isLadder (dict : List Word) (source target : Word) (p : List Word) : Prop :=
  p.head? = some source ∧ p.getLast? = some target ∧ (∀ w ∈ p, w ∈ dict) ∧
    List.Chain' (fun a b => wordDistance a b ≤ 1) p

/-- A ladder of the dictionary from `source` to `target`, in the words of
the spec: a sequence of words of `dict` that starts at `source`, ends at
`target`, and whose consecutive words are at Hamming distance at most 1. -/
def isHammingLadder (dict : List Word) (source target : Word) (p : List Word) : Prop :=
  p.head? = some source ∧ p.getLast? = some target ∧ (∀ w ∈ p, w ∈ dict) ∧
    List.Chain' (fun a b => hammingDistance a b ≤ 1) p

/-- The indices `getResult` reads, in the order of the path: `last`, which
stands at position `i`, is preceded by the index `findPrevious` gives for
its word, and so on down to position 0. -/
def backIndexes (dict : List Word) (used : List Int) : Nat → Nat → List Nat
  | 0, last => [last]
  | i + 1, last =>
    backIndexes dict used i ((findPrevious dict used (dict.getD last []) (i : Int)).getD 0)
      ++ [last]

/-- The stream that holds the given lines, a byte 10 between two lines. -/
def joinLines : List Word → List Nat
  | [] => []
  | [w] => w
  | w :: w' :: ws => w ++ 10 :: joinLines (w' :: ws)

/-- The word of size `L` made of `k` letters `b` followed by letters `a`. -/
def chainWord (L k : Nat) : Word := List.replicate k 98 ++ List.replicate (L - k) 97

/-- The `L + 1` words `chainWord L 0`, ..., `chainWord L L`: each differs
from the next one at one position. -/
def chainWords (L : Nat) : List Word := (List.range (L + 1)).map (chainWord L)

/-- The word of size `L` made of two letters `c` followed by letters `a`: it
differs at two positions or more from every `chainWord`. -/
def farWord (L : Nat) : Word := 99 :: 99 :: List.replicate (L - 2) 97

/-- The word list of the words of `chainWords L` and of `farWord L`, one
per line. -/
def chainStream (L : Nat) : List Nat := joinLines (chainWords L ++ [farWord L])

/-- The calls `markAsUsed(waveWords, waveIndex)` the loop of `DoWork` makes,
in order, with `remaining` iterations to go: for each call the value of
`waveIndex`, `_isWordUsed` right before the call, and `waveWords`. -/
def doWorkCalls (dict : List Word) (targetWordIndex : Nat) :
    Nat → Nat → List Int → List Nat → List (Nat × List Int × List Nat)
  | 0, _, _, _ => []
  | remaining + 1, waveIndex, isWordUsed, waveWords =>
    (waveIndex, isWordUsed, waveWords) ::
      (if isResultAchieved targetWordIndex waveWords then []
      else
        if (getSimilarWords dict (markAsUsed isWordUsed waveWords waveIndex) waveWords).length = 0
        then []
        else doWorkCalls dict targetWordIndex remaining (waveIndex + 1)
          (markAsUsed isWordUsed waveWords waveIndex)
          (getSimilarWords dict (markAsUsed isWordUsed waveWords waveIndex) waveWords))

/-- The calls of `markAsUsed` during one `DoWork()` of the converter. -/
def WordConverter.markCalls (wc : WordConverter) : List (Nat × List Int × List Nat) :=
  doWorkCalls wc._dict wc._targetWordIndex nMaxIter 0
    (List.replicate wc._dict.length (-1)) [wc._sourceWordIndex]

/-- The state of `DoWork` right before `markAsUsed(waveWords, k)`: marking
the wave gives the invariant `BfsInv`, the indices of the wave are not
marked yet, and the wave numbers written before are depths of the search. -/
structure Entry (dict : List Word) (src k : Nat) (used : List Int) (wave : List Nat) :
    Prop where
  inv : BfsInv dict src k (markAsUsed used wave k) wave
  length_eq : used.length = dict.length
  fresh : ∀ i, i ∈ wave → i < dict.length ∧ used.getD i _invalidIsWordUsed = -1
  pre : ∀ i (d : Nat), i < dict.length → used.getD i _invalidIsWordUsed = (d : Int) →
    Reach dict src d i ∧ ∀ d', d' < d → ¬ Reach dict src d' i

/-- The word of `2 ^ 32 + 1` bytes, all equal to `c`: one more than the
values an `unsigned int` holds. -/
def wrapWord (c : Nat) : Word := List.replicate 4294967297 c

/-- The word list of the two lines `wrapWord 97` and `wrapWord 98`. -/
def wrapStream : List Nat := joinLines [wrapWord 97, wrapWord 98]

/-- The word list of `Test::basic`, in the UTF-8 bytes of the source file:
the lines КОТ, ТОН, НОТА, КОТЫ, РОТ, РОТА, ТОТ. -/
def basicDict : List Nat :=
  [208, 154, 208, 158, 208, 162, 10, 208, 162, 208, 158, 208, 157, 10,
   208, 157, 208, 158, 208, 162, 208, 144, 10, 208, 154, 208, 158, 208, 162, 208, 171, 10,
   208, 160, 208, 158, 208, 162, 10, 208, 160, 208, 158, 208, 162, 208, 144, 10,
   208, 162, 208, 158, 208, 162]

/-- The word КОТ of `Test::basic`. -/
def wordKOT : Word := [208, 154, 208, 158, 208, 162]

/-- The word ТОН of `Test::basic`. -/
def wordTOH : Word := [208, 162, 208, 158, 208, 157]

/-- The word ТОТ of `Test::basic`. -/
def wordTOT : Word := [208, 162, 208, 158, 208, 162]

/-- The word РОТ of `Test::basic`. -/
def wordPOT : Word := [208, 160, 208, 158, 208, 162]

/-! # Verification -/

/-! ## The order of the words and the dictionary -/

theorem wordLt_iff_lex : ∀ a b : Word, wordLt a b = true ↔ List.Lex (fun x y : Nat => x < y) a b
  | [], [] => by
    simp only [wordLt, Bool.false_eq_true, false_iff]
    intro h
    cases h
  | [], _ :: _ => by
    simp only [wordLt, true_iff]
    exact List.Lex.nil
  | _ :: _, [] => by
    simp only [wordLt, false_iff, Bool.false_eq_true]
    intro h
    cases h
  | a :: as, b :: bs => by
    have ih := wordLt_iff_lex as bs
    unfold wordLt
    by_cases h1 : a < b
    · simp only [h1, if_true, true_iff]
      exact List.Lex.rel h1
    · by_cases h2 : b < a
      · simp only [h1, h2, if_true, if_false, false_iff, Bool.false_eq_true]
        intro h
        cases h with
        | cons h => exact absurd h2 (lt_irrefl _)
        | rel h => exact h1 h
      · have hab : a = b := le_antisymm (not_lt.1 h2) (not_lt.1 h1)
        subst hab
        simp only [h1, if_false, ih]
        exact List.Lex.cons_iff.symm

theorem wordLt_iff_lt (a b : Word) : wordLt a b = true ↔ a < b :=
  wordLt_iff_lex a b

theorem wordLe_iff_le (a b : Word) : wordLe a b ↔ a ≤ b := by
  unfold wordLe
  rw [← not_lt, ← wordLt_iff_lt]
  simp

theorem wordLe_isTotal : IsTotal Word wordLe :=
  ⟨fun a b => by simp only [wordLe_iff_le]; exact le_total a b⟩

theorem wordLe_isTrans : IsTrans Word wordLe :=
  ⟨fun a b c => by simp only [wordLe_iff_le]; exact le_trans⟩

theorem wordLe_isAntisymm : IsAntisymm Word wordLe :=
  ⟨fun a b => by simp only [wordLe_iff_le]; exact le_antisymm⟩

/-- The loop of `fillDictionary` keeps, in order, the lines of size `wordLen`. -/
theorem foldl_push_eq_filter (wordLen : Nat) (lines : List Word) (acc : List Word) :
    lines.foldl (fun dict word => if word.length ≠ wordLen then dict else dict ++ [word]) acc
      = acc ++ lines.filter (fun word => decide (word.length = wordLen)) := by
  induction lines generalizing acc with
  | nil => simp
  | cons w ws ih =>
    rw [List.foldl_cons, List.filter_cons]
    by_cases h : w.length = wordLen
    · rw [if_neg (not_not.2 h), ih, if_pos (by simpa using h)]
      simp
    · rw [if_pos h, ih, if_neg (by simpa using h)]

theorem fillDictionary_eq (dictStream : List Nat) (wordLen : Nat) :
    fillDictionary dictStream wordLen
      = List.insertionSort wordLe
          ((readLines dictStream).filter (fun word => decide (word.length = wordLen))) := by
  unfold fillDictionary
  rw [foldl_push_eq_filter]
  simp

theorem fillDictionary_perm (dictStream : List Nat) (wordLen : Nat) :
    List.Perm (fillDictionary dictStream wordLen)
      ((readLines dictStream).filter (fun word => decide (word.length = wordLen))) := by
  rw [fillDictionary_eq]
  exact List.perm_insertionSort _ _

theorem fillDictionary_sorted (dictStream : List Nat) (wordLen : Nat) :
    List.Sorted (fun a b : Word => a ≤ b) (fillDictionary dictStream wordLen) := by
  rw [fillDictionary_eq]
  haveI := wordLe_isTotal
  haveI := wordLe_isTrans
  have h := List.sorted_insertionSort wordLe
    ((readLines dictStream).filter (fun word => decide (word.length = wordLen)))
  exact List.Pairwise.imp (fun {a b} hab => (wordLe_iff_le a b).1 hab) h

theorem mem_fillDictionary {dictStream : List Nat} {wordLen : Nat} {w : Word} :
    w ∈ fillDictionary dictStream wordLen ↔ w ∈ readLines dictStream ∧ w.length = wordLen := by
  rw [(fillDictionary_perm dictStream wordLen).mem_iff]
  simp

theorem length_of_mem_fillDictionary {dictStream : List Nat} {wordLen : Nat} {w : Word}
    (h : w ∈ fillDictionary dictStream wordLen) : w.length = wordLen :=
  (mem_fillDictionary.1 h).2

/-! ## `getWordIndex` -/

theorem getWordIndexFrom_ok {word : Word} : ∀ {ws : List Word} {i j : Nat},
    getWordIndexFrom word ws i = .ok j →
      i ≤ j ∧ ws.get? (j - i) = some word ∧ ∀ k, k < j - i → ws.get? k ≠ some word
  | [], i, j, h => by simp [getWordIndexFrom] at h
  | w :: ws, i, j, h => by
    unfold getWordIndexFrom at h
    by_cases hw : w = word
    · simp only [hw, if_true, Except.ok.injEq] at h
      subst h
      simp [hw]
    · simp only [hw, if_false] at h
      obtain ⟨h1, h2, h3⟩ := getWordIndexFrom_ok h
      have e : j - i = (j - (i + 1)) + 1 := by omega
      refine ⟨by omega, ?_, ?_⟩
      · rw [e]; simpa using h2
      · intro k hk
        cases k with
        | zero => simpa using hw
        | succ k => simpa using h3 k (by omega)

theorem getWordIndexFrom_error {word : Word} : ∀ {ws : List Word} {i : Nat} {e : Error},
    getWordIndexFrom word ws i = .error e → e = .WordNotFound ∧ word ∉ ws
  | [], i, e, h => by
    simp only [getWordIndexFrom, Except.error.injEq] at h
    simp [h]
  | w :: ws, i, e, h => by
    unfold getWordIndexFrom at h
    by_cases hw : w = word
    · simp [hw] at h
    · simp only [hw, if_false] at h
      obtain ⟨h1, h2⟩ := getWordIndexFrom_error h
      refine ⟨h1, ?_⟩
      simp only [List.mem_cons, not_or]
      exact ⟨fun h => hw h.symm, h2⟩

theorem getWordIndexFrom_of_mem {word : Word} : ∀ {ws : List Word} (i : Nat),
    word ∈ ws → ∃ j, getWordIndexFrom word ws i = .ok j
  | [], _, h => by simp at h
  | w :: ws, i, h => by
    unfold getWordIndexFrom
    by_cases hw : w = word
    · exact ⟨i, by simp [hw]⟩
    · simp only [hw, if_false]
      apply getWordIndexFrom_of_mem
      rcases List.mem_cons.1 h with h | h
      · exact absurd h.symm hw
      · exact h

/-- What `getWordIndex` returns: an index of `word`, the smallest one. -/
theorem getWordIndex_ok {dict : List Word} {word : Word} {j : Nat}
    (h : getWordIndex dict word = .ok j) :
    j < dict.length ∧ dict.getD j [] = word ∧ ∀ k, k < j → dict.getD k [] ≠ word := by
  obtain ⟨-, h2, h3⟩ := getWordIndexFrom_ok h
  simp only [Nat.sub_zero] at h2 h3
  have hj : j < dict.length := by
    rw [List.get?_eq_some] at h2
    exact h2.1
  refine ⟨hj, ?_, ?_⟩
  · rw [List.getD_eq_getElem?_getD]
    simp only [List.get?_eq_getElem?] at h2
    simp [h2]
  · intro k hk hne
    apply h3 k hk
    have hk2 : k < dict.length := by omega
    rw [List.getD_eq_getElem _ _ hk2] at hne
    simp [List.get?_eq_getElem?, List.getElem?_eq_getElem hk2, hne]

theorem getWordIndex_error {dict : List Word} {word : Word} {e : Error}
    (h : getWordIndex dict word = .error e) : e = .WordNotFound ∧ word ∉ dict :=
  getWordIndexFrom_error h

theorem getWordIndex_of_mem {dict : List Word} {word : Word} (h : word ∈ dict) :
    ∃ j, getWordIndex dict word = .ok j :=
  getWordIndexFrom_of_mem 0 h


/-! ## `wordDistance` and the Hamming distance -/

theorem hammingDistance_cons (c1 c2 : Nat) (w1 w2 : Word) :
    hammingDistance (c1 :: w1) (c2 :: w2)
      = (if c1 = c2 then 0 else 1) + hammingDistance w1 w2 := by
  rw [hammingDistance]
  by_cases h : c1 = c2
  · simp [h]
  · simp [h]

theorem hammingDistance_comm (a b : Word) : hammingDistance a b = hammingDistance b a := by
  induction a generalizing b with
  | nil => cases b <;> simp [hammingDistance]
  | cons x xs ih =>
    cases b with
    | nil => simp [hammingDistance]
    | cons y ys =>
      rw [hammingDistance_cons, hammingDistance_cons, ih ys]
      by_cases h : x = y
      · simp [h]
      · simp [h, Ne.symm h]

theorem hammingDistance_self (a : Word) : hammingDistance a a = 0 := by
  induction a with
  | nil => rfl
  | cons x xs ih => rw [hammingDistance_cons, if_pos rfl, ih]

theorem hammingDistance_le_length (a b : Word) : hammingDistance a b ≤ a.length := by
  induction a generalizing b with
  | nil => simp [hammingDistance]
  | cons x xs ih =>
    cases b with
    | nil => simp [hammingDistance]
    | cons y ys =>
      rw [hammingDistance_cons, List.length_cons]
      have := ih ys
      split <;> omega

theorem eq_of_hammingDistance_eq_zero {a b : Word} (hlen : a.length = b.length)
    (h0 : hammingDistance a b = 0) : a = b := by
  induction a generalizing b with
  | nil =>
    cases b with
    | nil => rfl
    | cons y ys => exact absurd hlen (by simp)
  | cons x xs ih =>
    cases b with
    | nil => exact absurd hlen (by simp)
    | cons y ys =>
      rw [hammingDistance_cons] at h0
      by_cases hxy : x = y
      · rw [if_pos hxy, Nat.zero_add] at h0
        rw [hxy, ih (Nat.succ.inj hlen) h0]
      · rw [if_neg hxy] at h0
        omega

/-- The Hamming distance is the number of positions at which the words differ. -/
theorem hammingDistance_eq_countP (a b : Word) :
    hammingDistance a b = ((a.zip b).filter (fun p => decide (p.1 ≠ p.2))).length := by
  induction a generalizing b with
  | nil => cases b <;> simp [hammingDistance]
  | cons x xs ih =>
    cases b with
    | nil => simp [hammingDistance]
    | cons y ys =>
      rw [hammingDistance_cons, ih ys, List.zip_cons_cons, List.filter_cons]
      by_cases h : x = y
      · simp [h]
      · simp [h]; omega

/-- One substitution changes the number of occurrences of a byte by at most one. -/
theorem count_le_add_hammingDistance (c : Nat) {a b : Word} (hlen : a.length = b.length) :
    b.count c ≤ a.count c + hammingDistance a b := by
  induction a generalizing b with
  | nil =>
    cases b with
    | nil => simp
    | cons y ys => exact absurd hlen (by simp)
  | cons x xs ih =>
    cases b with
    | nil => exact absurd hlen (by simp)
    | cons y ys =>
      have ih' := ih (Nat.succ.inj hlen)
      rw [hammingDistance_cons, List.count_cons, List.count_cons]
      by_cases hxy : x = y
      · subst hxy
        simp only [if_true, Nat.zero_add]
        omega
      · simp only [hxy, if_false]
        split <;> split <;> omega

/-- The counter of `wordDistance` holds the Hamming distance modulo `2 ^ 32`. -/
theorem wordDistanceLoop_eq (a : Word) : ∀ (b : Word) (dist : Nat), dist < 4294967296 →
    wordDistanceLoop dist a b = (dist + hammingDistance a b) % 4294967296 := by
  induction a with
  | nil =>
    intro b dist hd
    cases b <;> simp only [wordDistanceLoop, hammingDistance] <;> omega
  | cons x xs ih =>
    intro b dist hd
    cases b with
    | nil =>
      simp only [wordDistanceLoop, hammingDistance]
      omega
    | cons y ys =>
      rw [wordDistanceLoop, ih ys _ (Nat.mod_lt _ (by omega)), hammingDistance_cons]
      by_cases hxy : x = y
      · have : ¬ ((x : Int) - (y : Int) ≠ 0) := by omega
        rw [if_neg this, if_pos hxy]
        omega
      · have : (x : Int) - (y : Int) ≠ 0 := by omega
        rw [if_pos this, if_neg hxy]
        omega

/-- What the code computes: the Hamming distance modulo `2 ^ 32`. -/
theorem wordDistance_eq_mod (a b : Word) :
    wordDistance a b = hammingDistance a b % 4294967296 := by
  unfold wordDistance
  rw [wordDistanceLoop_eq a b 0 (by omega), Nat.zero_add]

theorem wordDistance_comm (a b : Word) : wordDistance a b = wordDistance b a := by
  rw [wordDistance_eq_mod, wordDistance_eq_mod, hammingDistance_comm]

theorem wordDistance_self (a : Word) : wordDistance a a = 0 := by
  rw [wordDistance_eq_mod, hammingDistance_self]

/-- On words shorter than `2 ^ 32` the code computes the Hamming distance. -/
theorem wordDistance_eq_hammingDistance {a : Word} (b : Word) (h : a.length < 4294967296) :
    wordDistance a b = hammingDistance a b := by
  rw [wordDistance_eq_mod]
  have := hammingDistance_le_length a b
  omega

theorem wordDistance_le_one_of_hammingDistance {a b : Word} (h : hammingDistance a b ≤ 1) :
    wordDistance a b ≤ 1 := by
  rw [wordDistance_eq_mod]
  omega

/-! ## The wave: `markAsUsed` and `getSimilarWords` -/

theorem length_markAsUsed (v : Nat) : ∀ (ws : List Nat) (used : List Int),
    (markAsUsed used ws v).length = used.length
  | [], used => rfl
  | w :: ws, used => by
    unfold markAsUsed
    rw [List.foldl_cons]
    exact (length_markAsUsed v ws (used.set w v)).trans (List.length_set _ _ _)

theorem getD_set_int (used : List Int) (w i : Nat) (v dflt : Int) :
    (used.set w v).getD i dflt = if w = i ∧ i < used.length then v else used.getD i dflt := by
  rw [List.getD_eq_getElem?_getD, List.getD_eq_getElem?_getD, List.getElem?_set]
  by_cases h : w = i
  · subst h
    by_cases h2 : w < used.length
    · simp [h2]
    · simp [h2, List.getElem?_eq_none (not_lt.1 h2)]
  · simp [h]

theorem getD_markAsUsed (v : Nat) (dflt : Int) : ∀ (ws : List Nat) (used : List Int) (i : Nat),
    (markAsUsed used ws v).getD i dflt
      = if i ∈ ws ∧ i < used.length then (v : Int) else used.getD i dflt
  | [], used, i => by simp [markAsUsed]
  | w :: ws, used, i => by
    have ih := getD_markAsUsed v dflt ws (used.set w v) i
    unfold markAsUsed at ih ⊢
    rw [List.foldl_cons, ih, getD_set_int, List.length_set]
    by_cases h1 : i ∈ ws
    · by_cases h2 : i < used.length
      · simp [h1, h2]
      · simp [h1, h2]
    · by_cases h3 : w = i
      · by_cases h2 : i < used.length
        · simp [h1, h2, h3]
        · simp [h1, h2, h3]
      · simp [h1, h3, Ne.symm h3]

theorem mem_getSimilarWords {dict : List Word} {used : List Int} {wave : List Nat} {j : Nat} :
    j ∈ getSimilarWords dict used wave ↔
      j < dict.length ∧ used.getD j _invalidIsWordUsed = _invalidIsWordUsed ∧
        ∃ f, f ∈ wave ∧ adjacent dict f j := by
  unfold getSimilarWords adjacent
  simp only [List.mem_flatMap, List.mem_filter, List.mem_range]
  constructor
  · rintro ⟨f, hf, hj, h⟩
    by_cases hu : used.getD j _invalidIsWordUsed = _invalidIsWordUsed
    · simp only [hu, ne_eq, not_true_eq_false, if_false, decide_eq_true_eq] at h
      exact ⟨hj, hu, f, hf, h⟩
    · rw [if_pos hu] at h
      exact absurd h (by decide)
  · rintro ⟨hj, hu, f, hf, h⟩
    exact ⟨f, hf, hj, by rw [if_neg (not_not.2 hu)]; exact decide_eq_true h⟩

theorem isResultAchieved_iff {tgt : Nat} {wave : List Nat} :
    isResultAchieved tgt wave = true ↔ tgt ∈ wave := by
  simp [isResultAchieved]

/-! ## Steps between neighbours -/

theorem adjacent_refl (dict : List Word) (i : Nat) : adjacent dict i i := by
  unfold adjacent
  rw [wordDistance_self]
  exact Nat.zero_le _

theorem adjacent_symm {dict : List Word} {i j : Nat} (h : adjacent dict i j) :
    adjacent dict j i := by
  unfold adjacent at h ⊢
  rwa [wordDistance_comm]

theorem Reach.lt_length {dict : List Word} {src k i : Nat} (h : Reach dict src k i) :
    i < dict.length := by
  cases h with
  | source h => exact h
  | step _ h _ => exact h

theorem Reach.succ {dict : List Word} {src k i : Nat} (h : Reach dict src k i) :
    Reach dict src (k + 1) i :=
  Reach.step h h.lt_length (adjacent_refl dict i)

theorem Reach.mono {dict : List Word} {src k i : Nat} (h : Reach dict src k i) :
    ∀ {k' : Nat}, k ≤ k' → Reach dict src k' i := by
  intro k' hk
  induction hk with
  | refl => exact h
  | step _ ih => exact ih.succ

theorem Reach.src_lt {dict : List Word} {src k i : Nat} (h : Reach dict src k i) :
    src < dict.length := by
  induction h with
  | source h => exact h
  | step _ _ _ ih => exact ih

/-! ## The invariant of the search -/

theorem getD_replicate_invalid (n i : Nat) :
    (List.replicate n (-1 : Int)).getD i _invalidIsWordUsed = -1 := by
  rw [List.getD_eq_getElem?_getD, List.getElem?_replicate]
  by_cases h : i < n
  · simp [h]
  · simp [h, _invalidIsWordUsed]

/-- The invariant holds after the first `markAsUsed`, of the wave `{source}`. -/
theorem BfsInv.init (dict : List Word) {src : Nat} (hsrc : src < dict.length) :
    BfsInv dict src 0 (markAsUsed (List.replicate dict.length (-1)) [src] 0) [src] := by
  have hget : ∀ i, (markAsUsed (List.replicate dict.length (-1)) [src] 0).getD i
      _invalidIsWordUsed = if i = src then 0 else -1 := by
    intro i
    rw [getD_markAsUsed, getD_replicate_invalid, List.length_replicate]
    by_cases h : i = src
    · simp [h, hsrc]
    · simp [h]
  refine ⟨?_, ?_, ?_, ?_, ?_, ?_⟩
  · rw [length_markAsUsed, List.length_replicate]
  · intro i
    rw [hget]
    by_cases h : i = src
    · simp [h, hsrc]
    · simp [h]
  · intro i _
    rw [hget]
    by_cases h : i = src
    · exact Or.inr ⟨0, le_refl _, by simp [h]⟩
    · exact Or.inl (by simp [h])
  · intro i d _ hd
    rw [hget] at hd
    by_cases h : i = src
    · simp only [h, if_true] at hd
      have hd0 : d = 0 := by omega
      subst hd0
      subst h
      exact ⟨Reach.source hsrc, fun d' hd' => absurd hd' (Nat.not_lt_zero _)⟩
    · simp only [h, if_false] at hd
      omega
  · intro i hi
    rw [hget]
    cases hi
    simp
  · intro m hm
    refine ⟨src, hsrc, ?_⟩
    rw [hget]
    have : m = 0 := by omega
    simp [this]

/-- The invariant is kept by one more round of the loop: the next wave is
computed by `getSimilarWords` and marked with the next wave number. -/
theorem BfsInv.step {dict : List Word} {src k : Nat} {used : List Int} {wave : List Nat}
    (h : BfsInv dict src k used wave) (hne : getSimilarWords dict used wave ≠ []) :
    BfsInv dict src (k + 1)
      (markAsUsed used (getSimilarWords dict used wave) (k + 1))
      (getSimilarWords dict used wave) := by
  have hget : ∀ i, (markAsUsed used (getSimilarWords dict used wave) (k + 1)).getD i
      _invalidIsWordUsed = if i ∈ getSimilarWords dict used wave then ((k + 1 : Nat) : Int)
        else used.getD i _invalidIsWordUsed := by
    intro i
    rw [getD_markAsUsed]
    by_cases hi : i ∈ getSimilarWords dict used wave
    · have := (mem_getSimilarWords.1 hi).1
      rw [if_pos ⟨hi, by rw [h.length_eq]; exact this⟩, if_pos hi]
    · rw [if_neg (fun hh => hi hh.1), if_neg hi]
  have hinv : _invalidIsWordUsed = -1 := rfl
  refine ⟨?_, ?_, ?_, ?_, ?_, ?_⟩
  · rw [length_markAsUsed, h.length_eq]
  · intro i
    rw [hget]
    by_cases hi : i ∈ getSimilarWords dict used wave
    · simp only [hi, if_true, and_true, true_iff]
      exact (mem_getSimilarWords.1 hi).1
    · simp only [hi, if_false, false_iff, not_and]
      intro hlt hu
      rcases h.marked i hlt with h1 | ⟨d, hd, h1⟩
      · rw [h1] at hu; omega
      · rw [h1] at hu; omega
  · intro i hlt
    rw [hget]
    by_cases hi : i ∈ getSimilarWords dict used wave
    · exact Or.inr ⟨k + 1, le_refl _, by simp [hi]⟩
    · simp only [hi, if_false]
      rcases h.marked i hlt with h1 | ⟨d, hd, h1⟩
      · exact Or.inl h1
      · exact Or.inr ⟨d, by omega, h1⟩
  · intro i d hlt hd
    rw [hget] at hd
    by_cases hi : i ∈ getSimilarWords dict used wave
    · simp only [hi, if_true] at hd
      have hdk : d = k + 1 := by omega
      subst hdk
      obtain ⟨_, hu, f, hf, hadj⟩ := mem_getSimilarWords.1 hi
      obtain ⟨hfl, hfu⟩ := (h.wave_iff f).1 hf
      refine ⟨Reach.step (h.sound f k hfl hfu).1 hlt hadj, ?_⟩
      intro d' hd' hr
      exact h.complete i (hr.mono (by omega)) (by rw [hu, hinv])
    · simp only [hi, if_false] at hd
      exact h.sound i d hlt hd
  · intro i hr
    rw [hget]
    by_cases hi : i ∈ getSimilarWords dict used wave
    · simp only [hi, if_true]
      omega
    · simp only [hi, if_false]
      intro hu
      cases hr with
      | step hp hlt hadj =>
        rename_i p
        rcases h.marked p hp.lt_length with h1 | ⟨d, hd, h1⟩
        · exact h.complete p hp h1
        · rcases Nat.lt_or_ge d k with hlt2 | hge
          · have hr2 : Reach dict src (d + 1) i :=
              Reach.step (h.sound p d hp.lt_length h1).1 hlt hadj
            exact h.complete i (hr2.mono (by omega)) hu
          · have hdk : d = k := by omega
            subst hdk
            exact hi (mem_getSimilarWords.2
              ⟨hlt, by rw [hu, hinv], p, (h.wave_iff p).2 ⟨hp.lt_length, h1⟩, hadj⟩)
  · intro m hm
    rcases Nat.lt_or_ge m (k + 1) with hlt | hge
    · obtain ⟨i, hil, hiu⟩ := h.levels m (by omega)
      refine ⟨i, hil, ?_⟩
      rw [hget, if_neg, hiu]
      intro hi
      have := (mem_getSimilarWords.1 hi).2.1
      rw [hiu, hinv] at this
      omega
    · have hmk : m = k + 1 := by omega
      subst hmk
      obtain ⟨i, hi⟩ := List.exists_mem_of_ne_nil _ hne
      exact ⟨i, (mem_getSimilarWords.1 hi).1, by rw [hget, if_pos hi]⟩

/-! ## Path reconstruction: `getResult` -/

theorem findPrevious_some {dict : List Word} {used : List Int} {word : Word} {wave : Int}
    {p : Nat} (h : findPrevious dict used word wave = some p) :
    p < used.length ∧ used.getD p _invalidIsWordUsed = wave ∧
      wordDistance word (dict.getD p []) ≤ _maxWordDistance := by
  unfold findPrevious at h
  have h1 := List.mem_of_find?_eq_some h
  have h2 := List.find?_some h
  simp only [Bool.and_eq_true, decide_eq_true_eq] at h2
  exact ⟨List.mem_range.1 h1, h2.1, h2.2⟩

/-- Under the invariant every index of wave `i + 1` has a predecessor of wave
`i`, so the inner loop of `getResult` finds one. -/
theorem BfsInv.findPrevious_isSome {dict : List Word} {src K : Nat} {used : List Int}
    {wave : List Nat} (h : BfsInv dict src K used wave) {j i : Nat} (hj : j < dict.length)
    (hu : used.getD j _invalidIsWordUsed = ((i + 1 : Nat) : Int)) :
    ∃ p, findPrevious dict used (dict.getD j []) (i : Int) = some p := by
  obtain ⟨hr, hmin⟩ := h.sound j (i + 1) hj hu
  have hiK : i + 1 ≤ K := by
    rcases h.marked j hj with h1 | ⟨d, hd, h1⟩
    · rw [h1] at hu; omega
    · rw [h1] at hu; omega
  cases hr with
  | step hq hlt hadj =>
    rename_i q
    have hqu : used.getD q _invalidIsWordUsed = (i : Int) := by
      rcases h.marked q hq.lt_length with h1 | ⟨d, hd, h1⟩
      · exact absurd h1 (h.complete q (hq.mono (by omega)))
      · obtain ⟨hrq, hminq⟩ := h.sound q d hq.lt_length h1
        rcases Nat.lt_trichotomy d i with hlt2 | heq | hgt
        · exact absurd (Reach.step hrq hj hadj) (hmin (d + 1) (by omega))
        · rw [h1, heq]
        · exact absurd hq (hminq i hgt)
    cases hf : findPrevious dict used (dict.getD j []) (i : Int) with
    | some p => exact ⟨p, rfl⟩
    | none =>
      unfold findPrevious at hf
      rw [List.find?_eq_none] at hf
      have := hf q (List.mem_range.2 (by rw [h.length_eq]; exact hq.lt_length))
      simp only [Bool.and_eq_true, decide_eq_true_eq, not_and] at this
      exact absurd (adjacent_symm hadj) (this hqu)

theorem length_backIndexes (dict : List Word) (used : List Int) : ∀ (i last : Nat),
    (backIndexes dict used i last).length = i + 1
  | 0, _ => rfl
  | i + 1, last => by
    rw [backIndexes, List.length_append, length_backIndexes dict used i]
    rfl

/-- The indices `getResult` walks through: position `m` holds an index of
wave `m`, the last position holds `last`, and each position holds the index
`findPrevious` gives for the word of the next one. -/
theorem BfsInv.backIndexes_spec {dict : List Word} {src K : Nat} {used : List Int}
    {wave : List Nat} (h : BfsInv dict src K used wave) : ∀ (i last : Nat),
    last < dict.length → used.getD last _invalidIsWordUsed = (i : Int) →
      (backIndexes dict used i last).getD i 0 = last ∧
      (∀ m, m ≤ i → (backIndexes dict used i last).getD m 0 < dict.length ∧
        used.getD ((backIndexes dict used i last).getD m 0) _invalidIsWordUsed = (m : Int)) ∧
      (∀ m, m < i →
        findPrevious dict used (dict.getD ((backIndexes dict used i last).getD (m + 1) 0) [])
          (m : Int) = some ((backIndexes dict used i last).getD m 0))
  | 0, last, hl, hu => by
    refine ⟨rfl, ?_, ?_⟩
    · intro m hm
      have : m = 0 := by omega
      subst this
      exact ⟨hl, hu⟩
    · intro m hm
      omega
  | i + 1, last, hl, hu => by
    obtain ⟨p, hp⟩ := h.findPrevious_isSome hl hu
    obtain ⟨hp1, hp2, hp3⟩ := findPrevious_some hp
    rw [h.length_eq] at hp1
    obtain ⟨ih1, ih2, ih3⟩ := h.backIndexes_spec i p hp1 hp2
    have hlen := length_backIndexes dict used i p
    have hb : backIndexes dict used (i + 1) last = backIndexes dict used i p ++ [last] := by
      rw [backIndexes, hp]
      rfl
    have hlow : ∀ m, m ≤ i → (backIndexes dict used (i + 1) last).getD m 0
        = (backIndexes dict used i p).getD m 0 := by
      intro m hm
      rw [hb, List.getD_append _ _ _ _ (by omega)]
    have htop : (backIndexes dict used (i + 1) last).getD (i + 1) 0 = last := by
      rw [hb, List.getD_append_right _ _ _ _ (by omega), hlen]
      simp
    refine ⟨htop, ?_, ?_⟩
    · intro m hm
      rcases Nat.lt_or_ge m (i + 1) with hlt | hge
      · rw [hlow m (by omega)]
        exact ih2 m (by omega)
      · have : m = i + 1 := by omega
        subst this
        rw [htop]
        exact ⟨hl, hu⟩
    · intro m hm
      rcases Nat.lt_or_ge m i with hlt | hge
      · rw [hlow m (by omega), hlow (m + 1) (by omega)]
        exact ih3 m hlt
      · have : m = i := by omega
        subst this
        rw [hlow m (le_refl _), htop, ih1]
        exact hp

theorem getResultLoop_eq {dict : List Word} {src K : Nat} {used : List Int}
    {wave : List Nat} (h : BfsInv dict src K used wave) : ∀ (i last : Nat) (result : List Word),
    last < dict.length → used.getD last _invalidIsWordUsed = (i : Int) → i < result.length →
      getResultLoop dict used i (some last) result
        = .ok ((backIndexes dict used i last).map (fun j => dict.getD j [])
            ++ result.drop (i + 1))
  | 0, last, result, hl, hu, hr => by
    have hget : dict.get? last = some (dict.getD last []) := by
      rw [List.getD_eq_getElem _ _ hl, List.get?_eq_get hl]
      rfl
    rw [getResultLoop]
    simp only [Option.bind, hget]
    rw [List.set_eq_take_append_cons_drop, if_pos hr]
    rfl
  | i + 1, last, result, hl, hu, hr => by
    have hget : dict.get? last = some (dict.getD last []) := by
      rw [List.getD_eq_getElem _ _ hl, List.get?_eq_get hl]
      rfl
    obtain ⟨p, hp⟩ := h.findPrevious_isSome hl hu
    obtain ⟨hp1, hp2, hp3⟩ := findPrevious_some hp
    rw [h.length_eq] at hp1
    have hcast : (((i + 1 : Nat) : Int) - 1) = (i : Int) := by omega
    rw [getResultLoop]
    simp only [Option.bind, hget]
    rw [hcast, hp, getResultLoop_eq h i p _ hp1 hp2 (by rw [List.length_set]; omega)]
    have hb : backIndexes dict used (i + 1) last = backIndexes dict used i p ++ [last] := by
      rw [backIndexes, hp]
      rfl
    rw [hb, List.drop_set, if_neg (by omega), Nat.sub_self,
      List.set_eq_take_append_cons_drop, if_pos (by rw [List.length_drop]; omega)]
    simp [List.drop_drop, Nat.add_comm]

/-- When the target has wave number `k`, `getResult` returns the words at
the `k + 1` indices of `backIndexes`. -/
theorem getResult_eq {dict : List Word} {src K : Nat} {used : List Int}
    {wave : List Nat} (h : BfsInv dict src K used wave) {tgt k : Nat} (ht : tgt < dict.length)
    (hu : used.getD tgt _invalidIsWordUsed = (k : Int)) :
    getResult dict used tgt
      = .ok ((backIndexes dict used k tgt).map (fun j => dict.getD j [])) := by
  unfold getResult
  simp only [hu, Int.toNat_ofNat]
  rw [getResultLoop_eq h k tgt _ ht hu (by rw [List.length_replicate]; omega)]
  simp

/-! ## The loop of `DoWork` -/

/-- The three ways the loop of `DoWork` ends, entered at wave `k` with
`remaining` iterations to go: the target is in a wave `K` and `getResult`
is called; or the wave after `K` is empty; or the iterations run out. -/
theorem doWorkLoop_spec {dict : List Word} {src tgt : Nat} :
    ∀ (remaining k : Nat) (used : List Int) (wave : List Nat),
      BfsInv dict src k (markAsUsed used wave k) wave →
      (∀ m : Nat, m < k → (markAsUsed used wave k).getD tgt _invalidIsWordUsed ≠ (m : Int)) →
      (∃ K u w, k ≤ K ∧ K < k + remaining ∧ BfsInv dict src K u w ∧ tgt < dict.length ∧
          u.getD tgt _invalidIsWordUsed = (K : Int) ∧
          doWorkLoop dict tgt remaining k used wave = (u, getResult dict u tgt)) ∨
      (∃ K u w, k ≤ K ∧ K < k + remaining ∧ BfsInv dict src K u w ∧
          getSimilarWords dict u w = [] ∧ u.getD tgt _invalidIsWordUsed = -1 ∧
          doWorkLoop dict tgt remaining k used wave = (u, .error .NoPath)) ∨
      (∃ u w, BfsInv dict src (k + remaining) (markAsUsed u w (k + remaining)) w ∧
          (∀ m : Nat, m < k + remaining →
            (markAsUsed u w (k + remaining)).getD tgt _invalidIsWordUsed ≠ (m : Int)) ∧
          doWorkLoop dict tgt remaining k used wave = (u, .error .IterationLimitExceeded))
  | 0, k, used, wave, h, hq => Or.inr (Or.inr ⟨used, wave, h, hq, rfl⟩)
  | remaining + 1, k, used, wave, h, hq => by
    rw [doWorkLoop]
    by_cases hres : isResultAchieved tgt wave = true
    · obtain ⟨ht, hu⟩ := (h.wave_iff tgt).1 (isResultAchieved_iff.1 hres)
      exact Or.inl ⟨k, _, wave, le_refl _, by omega, h, ht, hu, by simp [hres]⟩
    · have hnot : tgt ∉ wave := fun hh => hres (isResultAchieved_iff.2 hh)
      have hinv : (markAsUsed used wave k).getD tgt _invalidIsWordUsed = -1 := by
        by_cases ht : tgt < dict.length
        · rcases h.marked tgt ht with h1 | ⟨d, hd, h1⟩
          · exact h1
          · rcases Nat.lt_or_ge d k with hlt | hge
            · exact absurd h1 (hq d hlt)
            · have hdk : d = k := by omega
              subst hdk
              exact absurd ((h.wave_iff tgt).2 ⟨ht, h1⟩) hnot
        · rw [List.getD_eq_default _ _ (by rw [h.length_eq]; omega)]
          rfl
      simp only [hres, Bool.false_eq_true, if_false]
      by_cases hemp : (getSimilarWords dict (markAsUsed used wave k) wave).length = 0
      · refine Or.inr (Or.inl ⟨k, _, wave, le_refl _, by omega, h,
          List.length_eq_zero.1 hemp, hinv, by simp [hemp]⟩)
      · have hne : getSimilarWords dict (markAsUsed used wave k) wave ≠ [] :=
          fun hh => hemp (by rw [hh]; rfl)
        simp only [hemp, if_false]
        have hq2 : ∀ m : Nat, m < k + 1 →
            (markAsUsed (markAsUsed used wave k)
              (getSimilarWords dict (markAsUsed used wave k) wave) (k + 1)).getD tgt
                _invalidIsWordUsed ≠ (m : Int) := by
          intro m hm
          rw [getD_markAsUsed]
          split
          · omega
          · rw [hinv]; omega
        rcases doWorkLoop_spec remaining (k + 1) _ _ (h.step hne) hq2 with
          ⟨K, u, w, h1, h2, h3, h4, h5, h6⟩ | ⟨K, u, w, h1, h2, h3, h4, h5, h6⟩ |
          ⟨u, w, h1, h2, h3⟩
        · exact Or.inl ⟨K, u, w, by omega, by omega, h3, h4, h5, h6⟩
        · exact Or.inr (Or.inl ⟨K, u, w, by omega, by omega, h3, h4, h5, h6⟩)
        · refine Or.inr (Or.inr ⟨u, w, ?_, ?_, h3⟩)
          · rw [show k + (remaining + 1) = k + 1 + remaining by omega]
            exact h1
          · rw [show k + (remaining + 1) = k + 1 + remaining by omega]
            exact h2

/-- When the wave after `K` is empty, every index that can be reached at all
is reached within `K` steps. -/
theorem BfsInv.closed {dict : List Word} {src K : Nat} {used : List Int} {wave : List Nat}
    (h : BfsInv dict src K used wave) (hemp : getSimilarWords dict used wave = []) :
    ∀ {d i : Nat}, Reach dict src d i → Reach dict src K i := by
  intro d i hr
  induction hr with
  | source hs => exact (Reach.source hs).mono (Nat.zero_le _)
  | step hp hlt hadj ih =>
    rename_i k p j
    rcases h.marked j hlt with h1 | ⟨d, hd, h1⟩
    · exfalso
      rcases h.marked p ih.lt_length with h2 | ⟨d, hd, h2⟩
      · exact h.complete p ih h2
      · rcases Nat.lt_or_ge d K with hlt2 | hge
        · exact h.complete j ((Reach.step (h.sound p d ih.lt_length h2).1 hlt hadj).mono
            (by omega)) h1
        · have hdk : d = K := by omega
          subst hdk
          have hmem : j ∈ getSimilarWords dict used wave :=
            mem_getSimilarWords.2 ⟨hlt, h1, p, (h.wave_iff p).2 ⟨ih.lt_length, h2⟩, hadj⟩
          rw [hemp] at hmem
          exact absurd hmem (List.not_mem_nil _)
    · exact (h.sound j d hlt h1).1.mono hd

/-- The wave numbers written are pairwise different for different depths, so
the dictionary has more words than the depth reached. -/
theorem BfsInv.depth_lt_length {dict : List Word} {src K : Nat} {used : List Int} {wave : List Nat}
    (h : BfsInv dict src K used wave) : K < dict.length := by
  classical
  choose f hf using fun m : Fin (K + 1) => h.levels m.1 (Nat.lt_succ_iff.1 m.2)
  have hinj : Function.Injective (fun m : Fin (K + 1) => (⟨f m, (hf m).1⟩ : Fin dict.length)) := by
    intro a b hab
    have hab2 : f a = f b := congrArg Fin.val hab
    have h1 := (hf a).2
    have h2 := (hf b).2
    rw [hab2, h2] at h1
    exact Fin.ext (by omega)
  have := Fintype.card_le_of_injective _ hinj
  simp only [Fintype.card_fin] at this
  omega

/-! ## The constructor and the whole run -/

theorem getWordIndex_of_not_mem {dict : List Word} {word : Word} (h : word ∉ dict) :
    getWordIndex dict word = .error .WordNotFound := by
  cases hr : getWordIndex dict word with
  | error e => rw [(getWordIndex_error hr).1]
  | ok j =>
    obtain ⟨h1, h2, _⟩ := getWordIndex_ok hr
    rw [List.getD_eq_getElem _ _ h1] at h2
    exact absurd (h2 ▸ List.getElem_mem h1) h

theorem new_invalidInput {s t : Word} (stream : List Nat) (h : s.length ≠ t.length) :
    WordConverter.new s t stream = .error .InvalidInput := by
  unfold WordConverter.new
  rw [if_pos h]

theorem new_ok {s t : Word} {stream : List Nat} {src tgt : Nat} (hlen : s.length = t.length)
    (hs : getWordIndex (fillDictionary stream s.length) s = .ok src)
    (ht : getWordIndex (fillDictionary stream s.length) t = .ok tgt) :
    WordConverter.new s t stream = .ok
      { _dict := fillDictionary stream s.length, _isWordUsed := [],
        _sourceWordIndex := src, _targetWordIndex := tgt } := by
  unfold WordConverter.new
  rw [if_neg (not_not.2 hlen)]
  simp only [hs, ht]

theorem new_error_target {s t : Word} {stream : List Nat} {e : Error}
    (hlen : s.length = t.length)
    (ht : getWordIndex (fillDictionary stream s.length) t = .error e) :
    WordConverter.new s t stream = .error .WordNotFound := by
  unfold WordConverter.new
  rw [if_neg (not_not.2 hlen)]
  simp only [ht, (getWordIndex_error ht).1]

theorem new_error_source {s t : Word} {stream : List Nat} {e : Error} {tgt : Nat}
    (hlen : s.length = t.length)
    (ht : getWordIndex (fillDictionary stream s.length) t = .ok tgt)
    (hs : getWordIndex (fillDictionary stream s.length) s = .error e) :
    WordConverter.new s t stream = .error .WordNotFound := by
  unfold WordConverter.new
  rw [if_neg (not_not.2 hlen)]
  simp only [ht, hs, (getWordIndex_error hs).1]

/-- The constructor either fails, with `InvalidInput` or `WordNotFound`, or
builds the converter of the filtered dictionary and the two first indices. -/
theorem new_cases (s t : Word) (stream : List Nat) :
    WordConverter.new s t stream = .error .InvalidInput ∨
    WordConverter.new s t stream = .error .WordNotFound ∨
    ∃ src tgt, s.length = t.length ∧
      getWordIndex (fillDictionary stream s.length) s = .ok src ∧
      getWordIndex (fillDictionary stream s.length) t = .ok tgt ∧
      WordConverter.new s t stream = .ok
        { _dict := fillDictionary stream s.length, _isWordUsed := [],
          _sourceWordIndex := src, _targetWordIndex := tgt } := by
  by_cases hlen : s.length = t.length
  · by_cases ht : t ∈ fillDictionary stream s.length
    · obtain ⟨tgt, ht⟩ := getWordIndex_of_mem ht
      by_cases hs : s ∈ fillDictionary stream s.length
      · obtain ⟨src, hs⟩ := getWordIndex_of_mem hs
        exact Or.inr (Or.inr ⟨src, tgt, hlen, hs, ht, new_ok hlen hs ht⟩)
      · exact Or.inr (Or.inl (new_error_source hlen ht (getWordIndex_of_not_mem hs)))
    · exact Or.inr (Or.inl (new_error_target hlen (getWordIndex_of_not_mem ht)))
  · exact Or.inl (new_invalidInput stream hlen)

theorem run_eq_doWorkLoop {s t : Word} {stream : List Nat} {src tgt : Nat}
    (hlen : s.length = t.length)
    (hs : getWordIndex (fillDictionary stream s.length) s = .ok src)
    (ht : getWordIndex (fillDictionary stream s.length) t = .ok tgt) :
    run s t stream = (doWorkLoop (fillDictionary stream s.length) tgt nMaxIter 0
      (List.replicate (fillDictionary stream s.length).length (-1)) [src]).2 := by
  unfold run
  rw [new_ok hlen hs ht]
  rfl

/-- How a run on two words of the filtered dictionary ends: with the path
`getResult` reads off the wave numbers, the target being at depth `K`; with
`NoPath`, the wave after `K` being empty; or with `IterationLimitExceeded`,
the search being `nMaxIter` waves deep. -/
theorem run_cases {s t : Word} {stream : List Nat} {src tgt : Nat}
    (hlen : s.length = t.length)
    (hs : getWordIndex (fillDictionary stream s.length) s = .ok src)
    (ht : getWordIndex (fillDictionary stream s.length) t = .ok tgt) :
    (∃ K u w, K < nMaxIter ∧ BfsInv (fillDictionary stream s.length) src K u w ∧
        u.getD tgt _invalidIsWordUsed = (K : Int) ∧
        run s t stream = .ok ((backIndexes (fillDictionary stream s.length) u K tgt).map
          (fun j => (fillDictionary stream s.length).getD j []))) ∨
    (∃ K u w, K < nMaxIter ∧ BfsInv (fillDictionary stream s.length) src K u w ∧
        getSimilarWords (fillDictionary stream s.length) u w = [] ∧
        u.getD tgt _invalidIsWordUsed = -1 ∧ run s t stream = .error .NoPath) ∨
    (∃ u w, BfsInv (fillDictionary stream s.length) src nMaxIter u w ∧
        (∀ m : Nat, m < nMaxIter → u.getD tgt _invalidIsWordUsed ≠ (m : Int)) ∧
        run s t stream = .error .IterationLimitExceeded) := by
  have hsrc := (getWordIndex_ok hs).1
  rw [run_eq_doWorkLoop hlen hs ht]
  rcases @doWorkLoop_spec _ src tgt nMaxIter 0 _ _
      (BfsInv.init (fillDictionary stream s.length) hsrc)
      (fun m hm => absurd hm (Nat.not_lt_zero _)) with
    ⟨K, u, w, _, h2, h3, h4, h5, h6⟩ | ⟨K, u, w, _, h2, h3, h4, h5, h6⟩ | ⟨u, w, h1, h2, h3⟩
  · refine Or.inl ⟨K, u, w, by omega, h3, h5, ?_⟩
    rw [h6, getResult_eq h3 h4 h5]
  · exact Or.inr (Or.inl ⟨K, u, w, by omega, h3, h4, h5, by rw [h6]⟩)
  · rw [Nat.zero_add] at h1 h2
    exact Or.inr (Or.inr ⟨markAsUsed u w nMaxIter, w, h1, h2, by rw [h3]⟩)

/-! ## Ladders of words and steps between indices -/

theorem getD_mem_of_lt {dict : List Word} {i : Nat} (h : i < dict.length) :
    dict.getD i [] ∈ dict := by
  rw [List.getD_eq_getElem _ _ h]
  exact List.getElem_mem h

theorem exists_index_of_mem {dict : List Word} {w : Word} (h : w ∈ dict) :
    ∃ i, i < dict.length ∧ dict.getD i [] = w := by
  obtain ⟨i, hi, hw⟩ := List.getElem_of_mem h
  exact ⟨i, hi, by rw [List.getD_eq_getElem _ _ hi]; exact hw⟩

theorem getLast?_cons_of_ne_nil {α : Type} (a : α) {l : List α} (h : l ≠ []) :
    (a :: l).getLast? = l.getLast? := by
  cases l with
  | nil => exact absurd rfl h
  | cons b l => rw [List.getLast?_cons_cons]

theorem Reach.prepend {dict : List Word} {a b k i : Nat} (h : Reach dict a k i)
    (hb : b < dict.length) (hadj : adjacent dict b a) : Reach dict b (k + 1) i := by
  induction h with
  | source ha => exact Reach.step (Reach.source hb) ha hadj
  | step _ hj hadj2 ih => exact Reach.step ih hj hadj2

theorem reach_of_chain {dict : List Word} : ∀ (p : List Word) (a : Nat), a < dict.length →
    (∀ w ∈ p, w ∈ dict) → List.Chain' (fun x y => wordDistance x y ≤ 1) (dict.getD a [] :: p) →
    p ≠ [] → ∀ it, it < dict.length → p.getLast? = some (dict.getD it []) →
    Reach dict a p.length it
  | [], _, _, _, _, hne, _, _, _ => absurd rfl hne
  | b :: p', a, ha, hmem, hch, _, it, hit, hlast => by
    rw [List.chain'_cons] at hch
    obtain ⟨hab, hch'⟩ := hch
    by_cases hp' : p' = []
    · subst hp'
      simp only [List.getLast?_singleton, Option.some.injEq] at hlast
      refine Reach.step (Reach.source ha) hit ?_
      unfold adjacent
      rw [← hlast]
      exact hab
    · obtain ⟨ib, hib, hbw⟩ := exists_index_of_mem (hmem b (List.mem_cons_self _ _))
      have hlast' : p'.getLast? = some (dict.getD it []) := by
        rw [← hlast, getLast?_cons_of_ne_nil _ hp']
      have hr := reach_of_chain p' ib hib (fun w hw => hmem w (List.mem_cons_of_mem _ hw))
        (by rw [hbw]; exact hch') hp' it hit hlast'
      refine hr.prepend ha ?_
      unfold adjacent
      rw [hbw]
      exact hab

/-- A ladder in the words of the spec is a ladder by the test of the code. -/
theorem isLadder_of_isHammingLadder {dict : List Word} {s t : Word} {p : List Word}
    (h : isHammingLadder dict s t p) : isLadder dict s t p :=
  ⟨h.1, h.2.1, h.2.2.1,
    h.2.2.2.imp (fun _ _ hab => wordDistance_le_one_of_hammingDistance hab)⟩

/-- When the words of the dictionary are shorter than `2 ^ 32`, a ladder by
the test of the code is a ladder in the words of the spec. -/
theorem isHammingLadder_of_isLadder {dict : List Word} {L : Nat}
    (hlen : ∀ w ∈ dict, w.length = L) (hL : L < 4294967296) {s t : Word} {p : List Word}
    (h : isLadder dict s t p) : isHammingLadder dict s t p := by
  obtain ⟨h1, h2, h3, h4⟩ := h
  refine ⟨h1, h2, h3, ?_⟩
  have hall : ∀ w ∈ p, w.length < 4294967296 := fun w hw => by
    rw [hlen w (h3 w hw)]
    exact hL
  clear h1 h2 h3
  induction p with
  | nil => exact List.chain'_nil
  | cons a p ih =>
    cases p with
    | nil => exact List.chain'_singleton _
    | cons b p =>
      rw [List.chain'_cons] at h4 ⊢
      refine ⟨?_, ih h4.2 (fun w hw => hall w (List.mem_cons_of_mem _ hw))⟩
      rw [← wordDistance_eq_hammingDistance b (hall a (List.mem_cons_self _ _))]
      exact h4.1

/-- A ladder of words from the source to the target gives as many steps
between the index of the source and the index of the target. -/
theorem reach_of_isLadder {dict : List Word} {s t : Word} {p : List Word} {src tgt : Nat}
    (hp : isLadder dict s t p) (hs : getWordIndex dict s = .ok src)
    (ht : getWordIndex dict t = .ok tgt) : Reach dict src (p.length - 1) tgt := by
  obtain ⟨hhead, hlast, hmem, hch⟩ := hp
  obtain ⟨hsl, hsw, -⟩ := getWordIndex_ok hs
  obtain ⟨htl, htw, -⟩ := getWordIndex_ok ht
  cases p with
  | nil => simp at hhead
  | cons a p' =>
    simp only [List.head?_cons, Option.some.injEq] at hhead
    subst hhead
    by_cases hp' : p' = []
    · subst hp'
      simp only [List.getLast?_singleton, Option.some.injEq] at hlast
      subst hlast
      rw [hs] at ht
      cases ht
      exact Reach.source hsl
    · have hlast' : p'.getLast? = some (dict.getD tgt []) := by
        rw [htw, ← hlast, getLast?_cons_of_ne_nil _ hp']
      have := reach_of_chain p' src hsl (fun w hw => hmem w (List.mem_cons_of_mem _ hw))
        (by rw [hsw]; exact hch) hp' tgt htl hlast'
      simpa using this

/-- Steps between indices give a ladder of their words, one word longer
than the number of steps. -/
theorem exists_isLadder_of_reach {dict : List Word} {src d i : Nat}
    (h : Reach dict src d i) :
    ∃ p, isLadder dict (dict.getD src []) (dict.getD i []) p ∧ p.length = d + 1 := by
  induction h with
  | source hs =>
    refine ⟨[dict.getD src []], ⟨rfl, rfl, ?_, List.chain'_singleton _⟩, rfl⟩
    intro w hw
    rw [List.mem_singleton.1 hw]
    exact getD_mem_of_lt hs
  | step hp hj hadj ih =>
    rename_i k q j
    obtain ⟨p, ⟨h1, h2, h3, h4⟩, h5⟩ := ih
    have hne : p ≠ [] := by
      intro hh
      rw [hh] at h5
      simp at h5
    refine ⟨p ++ [dict.getD j []], ⟨?_, ?_, ?_, ?_⟩, ?_⟩
    · rw [List.head?_append_of_ne_nil _ hne, h1]
    · rw [List.getLast?_append]
      rfl
    · intro w hw
      rcases List.mem_append.1 hw with hw | hw
      · exact h3 w hw
      · rw [List.mem_singleton.1 hw]
        exact getD_mem_of_lt hj
    · rw [List.chain'_append]
      refine ⟨h4, List.chain'_singleton _, ?_⟩
      intro x hx y hy
      rw [h2] at hx
      simp only [Option.mem_def, Option.some.injEq, List.head?_cons] at hx hy
      rw [← hx, ← hy]
      exact hadj
    · rw [List.length_append, h5]
      rfl

/-! ## The returned path -/

theorem run_of_new_error {s t : Word} {stream : List Nat} {e : Error}
    (h : WordConverter.new s t stream = .error e) : run s t stream = .error e := by
  unfold run
  rw [h]

/-- A run that returns a path: the constructor succeeded, the search stopped
at the wave `K` of the target, and the path holds the words at the indices
of `backIndexes`. -/
theorem run_ok_inv {s t : Word} {stream : List Nat} {path : List Word}
    (h : run s t stream = .ok path) :
    ∃ src tgt K u w, s.length = t.length ∧
      getWordIndex (fillDictionary stream s.length) s = .ok src ∧
      getWordIndex (fillDictionary stream s.length) t = .ok tgt ∧
      K < nMaxIter ∧
      BfsInv (fillDictionary stream s.length) src K u w ∧
      u.getD tgt _invalidIsWordUsed = (K : Int) ∧
      path = (backIndexes (fillDictionary stream s.length) u K tgt).map
        (fun j => (fillDictionary stream s.length).getD j []) := by
  rcases new_cases s t stream with he | he | ⟨src, tgt, hlen, hs, ht, -⟩
  · rw [run_of_new_error he] at h
    cases h
  · rw [run_of_new_error he] at h
    cases h
  · rcases run_cases hlen hs ht with ⟨K, u, w, hK, hinv, hu, hrun⟩ | ⟨K, u, w, _, _, _, _, hrun⟩ |
      ⟨u, w, _, _, hrun⟩
    · rw [hrun] at h
      cases h
      exact ⟨src, tgt, K, u, w, hlen, hs, ht, hK, hinv, hu, rfl⟩
    · rw [hrun] at h
      cases h
    · rw [hrun] at h
      cases h

theorem BfsInv.eq_src {dict : List Word} {src K : Nat} {used : List Int} {wave : List Nat}
    (h : BfsInv dict src K used wave) {i : Nat} (hi : i < dict.length)
    (hu : used.getD i _invalidIsWordUsed = ((0 : Nat) : Int)) : i = src := by
  have hr := (h.sound i 0 hi hu).1
  cases hr
  rfl

theorem BfsInv.source_lt_length {dict : List Word} {src K : Nat} {used : List Int} {wave : List Nat}
    (h : BfsInv dict src K used wave) : src < dict.length := by
  obtain ⟨i, hi, hu⟩ := h.levels 0 (Nat.zero_le _)
  exact (h.sound i 0 hi hu).1.src_lt

theorem BfsInv.getD_src {dict : List Word} {src K : Nat} {used : List Int} {wave : List Nat}
    (h : BfsInv dict src K used wave) : used.getD src _invalidIsWordUsed = ((0 : Nat) : Int) := by
  obtain ⟨i, hi, hu⟩ := h.levels 0 (Nat.zero_le _)
  rw [← h.eq_src hi hu]
  exact hu

theorem head?_eq_getD {l : List Nat} (h : 0 < l.length) : l.head? = some (l.getD 0 0) := by
  cases l with
  | nil => simp at h
  | cons a l => rfl

theorem getLast?_eq_getD {l : List Nat} {k : Nat} (h : l.length = k + 1) :
    l.getLast? = some (l.getD k 0) := by
  rw [List.getLast?_eq_getElem?, h, List.getD_eq_getElem _ _ (by omega),
    List.getElem?_eq_getElem (by omega)]
  rfl

theorem exists_getD_of_mem {l : List Nat} {j : Nat} (h : j ∈ l) :
    ∃ m, m < l.length ∧ l.getD m 0 = j := by
  obtain ⟨m, hm, hj⟩ := List.getElem_of_mem h
  exact ⟨m, hm, by rw [List.getD_eq_getElem _ _ hm]; exact hj⟩

theorem chain'_map_of_getD {R : Word → Word → Prop} {l : List Nat} {f : Nat → Word}
    (h : ∀ m, m + 1 < l.length → R (f (l.getD m 0)) (f (l.getD (m + 1) 0))) :
    List.Chain' R (l.map f) := by
  rw [List.chain'_map, List.chain'_iff_get]
  intro i hi
  have := h i (by omega)
  rw [List.getD_eq_getElem _ _ (by omega), List.getD_eq_getElem _ _ (by omega)] at this
  exact this

/-- Two consecutive indices of the path hold different words: the
dictionary may repeat a word, but a repeated word has the wave number of its
first copy, except next to the source, where the path cannot pass. -/
theorem BfsInv.backIndexes_ne {dict : List Word} {src K : Nat} {used : List Int}
    {wave : List Nat} (h : BfsInv dict src K used wave) {tgt : Nat} (ht : tgt < dict.length)
    (hu : used.getD tgt _invalidIsWordUsed = (K : Int))
    (hfirst : dict.getD tgt [] = dict.getD src [] → tgt = src) {m : Nat} (hm : m < K) :
    dict.getD ((backIndexes dict used K tgt).getD m 0) []
      ≠ dict.getD ((backIndexes dict used K tgt).getD (m + 1) 0) [] := by
  obtain ⟨hlast, hwave, hprev⟩ := h.backIndexes_spec K tgt ht hu
  intro heq
  obtain ⟨ha, hau⟩ := hwave m (by omega)
  obtain ⟨hb, hbu⟩ := hwave (m + 1) (by omega)
  have hbmin := (h.sound _ (m + 1) hb hbu).2
  cases m with
  | succ m' =>
    have hra := (h.sound _ (m' + 1) ha hau).1
    cases hra with
    | step hq _ hadj =>
      refine hbmin (m' + 1) (by omega) (Reach.step hq hb ?_)
      unfold adjacent at hadj ⊢
      rw [← heq]
      exact hadj
  | zero =>
    have hasrc := h.eq_src ha hau
    rw [hasrc] at heq
    rcases Nat.lt_or_ge 1 K with hK | hK
    · obtain ⟨hc, hcu⟩ := hwave 2 (by omega)
      have hcmin := (h.sound _ 2 hc hcu).2
      obtain ⟨-, -, hd⟩ := findPrevious_some (hprev 1 hK)
      refine hcmin 1 (by omega) (Reach.step (Reach.source h.source_lt_length) hc ?_)
      unfold adjacent
      rw [heq, wordDistance_comm]
      exact hd
    · have hK1 : K = 1 := by omega
      subst hK1
      rw [hlast] at heq
      have := hfirst heq.symm
      rw [this, h.getD_src] at hu
      omega

/-- Everything the claims need of a returned path: its size, its ends, its
words, its steps, and the minimality of the wave number of the target. -/
theorem run_ok_path {s t : Word} {stream : List Nat} {path : List Word}
    (h : run s t stream = .ok path) :
    ∃ src tgt K, getWordIndex (fillDictionary stream s.length) s = .ok src ∧
      getWordIndex (fillDictionary stream s.length) t = .ok tgt ∧
      path.length = K + 1 ∧ path.head? = some s ∧ path.getLast? = some t ∧
      (∀ w ∈ path, w ∈ fillDictionary stream s.length) ∧
      List.Chain' (fun a b => a.length = b.length ∧ a ≠ b ∧ wordDistance a b ≤ 1) path ∧
      (∀ d, d < K → ¬ Reach (fillDictionary stream s.length) src d tgt) ∧
      (K = 0 ↔ s = t) := by
  obtain ⟨src, tgt, K, u, w, hlen, hs, ht, hK, hinv, hu, hpath⟩ := run_ok_inv h
  obtain ⟨hsl, hsw, -⟩ := getWordIndex_ok hs
  obtain ⟨htl, htw, -⟩ := getWordIndex_ok ht
  obtain ⟨hlast, hwave, hprev⟩ := hinv.backIndexes_spec K tgt htl hu
  have hlenl := length_backIndexes (fillDictionary stream s.length) u K tgt
  have hfirst : (fillDictionary stream s.length).getD tgt [] =
      (fillDictionary stream s.length).getD src [] → tgt = src := by
    intro heq
    rw [hsw, htw] at heq
    rw [heq, hs] at ht
    cases ht
    rfl
  refine ⟨src, tgt, K, hs, ht, ?_, ?_, ?_, ?_, ?_, ?_, ?_⟩
  · rw [hpath, List.length_map, hlenl]
  · rw [hpath, List.head?_map, head?_eq_getD (by omega),
      hinv.eq_src (hwave 0 (Nat.zero_le _)).1 (hwave 0 (Nat.zero_le _)).2]
    exact congrArg some hsw
  · rw [hpath, List.getLast?_map, getLast?_eq_getD hlenl, hlast]
    exact congrArg some htw
  · intro x hx
    rw [hpath] at hx
    obtain ⟨j, hj, hjx⟩ := List.mem_map.1 hx
    obtain ⟨m, hm, hmj⟩ := exists_getD_of_mem hj
    rw [← hjx, ← hmj]
    exact getD_mem_of_lt (hwave m (by omega)).1
  · rw [hpath]
    apply chain'_map_of_getD
    intro m hm
    rw [hlenl] at hm
    have hm' : m < K := by omega
    have ha := getD_mem_of_lt (hwave m (by omega)).1
    have hb := getD_mem_of_lt (hwave (m + 1) (by omega)).1
    have hla := length_of_mem_fillDictionary ha
    have hlb := length_of_mem_fillDictionary hb
    have hle := (findPrevious_some (hprev m hm')).2.2
    have hne := hinv.backIndexes_ne htl hu hfirst hm'
    rw [wordDistance_comm] at hle
    exact ⟨by rw [hla, hlb], hne, hle⟩
  · exact fun d hd => (hinv.sound tgt K htl hu).2 d hd
  · constructor
    · intro hK0
      rw [hK0] at hu
      have := hinv.eq_src htl hu
      rw [← hsw, ← htw, this]
    · intro hst
      rw [← hst, hs] at ht
      cases ht
      have := hinv.getD_src
      rw [hu] at this
      omega

/-! ## A search deeper than the iteration cap -/

theorem readLines_of_no_newline : ∀ (w : Word), 10 ∉ w → readLines w = [w]
  | [], _ => rfl
  | c :: w, h => by
    have hc : c ≠ 10 := fun hh => h (hh ▸ List.mem_cons_self _ _)
    have hw : 10 ∉ w := fun hh => h (List.mem_cons_of_mem _ hh)
    rw [readLines, if_neg hc, readLines_of_no_newline w hw]

theorem readLines_append_newline (rest : List Nat) : ∀ (w : Word), 10 ∉ w →
    readLines (w ++ 10 :: rest) = w :: readLines rest
  | [], _ => by
    rw [List.nil_append, readLines, if_pos rfl]
  | c :: w, h => by
    have hc : c ≠ 10 := fun hh => h (hh ▸ List.mem_cons_self _ _)
    have hw : 10 ∉ w := fun hh => h (List.mem_cons_of_mem _ hh)
    rw [List.cons_append, readLines, if_neg hc, readLines_append_newline rest w hw]

theorem readLines_joinLines : ∀ (ws : List Word), ws ≠ [] → (∀ w ∈ ws, 10 ∉ w) →
    readLines (joinLines ws) = ws
  | [], h, _ => absurd rfl h
  | [w], _, h => by
    rw [joinLines]
    exact readLines_of_no_newline w (h w (List.mem_singleton_self _))
  | w :: w' :: ws, _, h => by
    rw [joinLines, readLines_append_newline _ w (h w (List.mem_cons_self _ _)),
      readLines_joinLines (w' :: ws) (List.cons_ne_nil _ _)
        (fun x hx => h x (List.mem_cons_of_mem _ hx))]

theorem length_chainWord {L k : Nat} (h : k ≤ L) : (chainWord L k).length = L := by
  unfold chainWord
  rw [List.length_append, List.length_replicate, List.length_replicate]
  omega

theorem length_farWord {L : Nat} (h : 2 ≤ L) : (farWord L).length = L := by
  unfold farWord
  rw [List.length_cons, List.length_cons, List.length_replicate]
  omega

theorem mem_chainWord {L k c : Nat} (h : c ∈ chainWord L k) : c = 98 ∨ c = 97 := by
  unfold chainWord at h
  rcases List.mem_append.1 h with h | h
  · exact Or.inl (List.eq_of_mem_replicate h)
  · exact Or.inr (List.eq_of_mem_replicate h)

theorem mem_farWord {L c : Nat} (h : c ∈ farWord L) : c = 99 ∨ c = 97 := by
  unfold farWord at h
  rcases List.mem_cons.1 h with h | h
  · exact Or.inl h
  · rcases List.mem_cons.1 h with h | h
    · exact Or.inl h
    · exact Or.inr (List.eq_of_mem_replicate h)

theorem mem_chainWords {L : Nat} {w : Word} :
    w ∈ chainWords L ↔ ∃ k, k ≤ L ∧ chainWord L k = w := by
  unfold chainWords
  rw [List.mem_map]
  constructor
  · rintro ⟨k, hk, hw⟩
    exact ⟨k, Nat.lt_succ_iff.1 (List.mem_range.1 hk), hw⟩
  · rintro ⟨k, hk, hw⟩
    exact ⟨k, List.mem_range.2 (Nat.lt_succ_iff.2 hk), hw⟩

/-- The filtered dictionary of `chainStream L` holds the words of
`chainWords L` and `farWord L`, and nothing else. -/
theorem mem_chainDict {L : Nat} (hL : 2 ≤ L) {w : Word} :
    w ∈ fillDictionary (chainStream L) L ↔ (∃ k, k ≤ L ∧ chainWord L k = w) ∨ w = farWord L := by
  have hread : readLines (chainStream L) = chainWords L ++ [farWord L] := by
    unfold chainStream
    apply readLines_joinLines
    · intro hh
      have := congrArg List.length hh
      simp at this
    · intro x hx h10
      rcases List.mem_append.1 hx with hx | hx
      · obtain ⟨k, -, hk⟩ := mem_chainWords.1 hx
        rw [← hk] at h10
        rcases mem_chainWord h10 with h | h <;> omega
      · rw [List.mem_singleton.1 hx] at h10
        rcases mem_farWord h10 with h | h <;> omega
  rw [mem_fillDictionary, hread, List.mem_append, List.mem_singleton, mem_chainWords]
  constructor
  · rintro ⟨h, -⟩
    exact h
  · intro h
    refine ⟨h, ?_⟩
    rcases h with ⟨k, hk, hw⟩ | hw
    · rw [← hw]
      exact length_chainWord hk
    · rw [hw]
      exact length_farWord hL

theorem count_chainWord_b (L k : Nat) : (chainWord L k).count 98 = k := by
  unfold chainWord
  rw [List.count_append, List.count_replicate_self, List.count_replicate]
  simp

theorem count_chainWord_c (L k : Nat) : (chainWord L k).count 99 = 0 := by
  unfold chainWord
  rw [List.count_append, List.count_replicate, List.count_replicate]
  simp

theorem count_farWord_c (L : Nat) : (farWord L).count 99 = 2 := by
  unfold farWord
  rw [List.count_cons_self, List.count_cons_self, List.count_replicate]
  simp

theorem hammingDistance_append_left (p a b : Word) :
    hammingDistance (p ++ a) (p ++ b) = hammingDistance a b := by
  induction p with
  | nil => rfl
  | cons c p ih =>
    rw [List.cons_append, List.cons_append, hammingDistance_cons, if_pos rfl, Nat.zero_add, ih]

theorem wordDistance_chainWord_succ {L k : Nat} (h : k < L) :
    wordDistance (chainWord L k) (chainWord L (k + 1)) ≤ 1 := by
  apply wordDistance_le_one_of_hammingDistance
  unfold chainWord
  have h1 : L - k = (L - (k + 1)) + 1 := by omega
  rw [h1, List.replicate_succ' (n := k), List.append_assoc, hammingDistance_append_left,
    List.replicate_succ, List.singleton_append, hammingDistance_cons, hammingDistance_self]
  simp

/-- Each step between words shorter than `2 ^ 32` changes the number of
occurrences of a byte by one at most. -/
theorem Reach.count_le {dict : List Word} {L : Nat} (hlen : ∀ w ∈ dict, w.length = L)
    (hL : L < 4294967296) (c : Nat) {src d i : Nat} (h : Reach dict src d i) :
    (dict.getD i []).count c ≤ (dict.getD src []).count c + d := by
  induction h with
  | source _ => exact Nat.le_add_right _ _
  | step hp hj hadj ih =>
    rename_i k q j
    have hq := hlen _ (getD_mem_of_lt hp.lt_length)
    have hl : (dict.getD q []).length = (dict.getD j []).length := by
      rw [hq, hlen _ (getD_mem_of_lt hj)]
    have := count_le_add_hammingDistance c hl
    unfold adjacent _maxWordDistance at hadj
    rw [wordDistance_eq_hammingDistance _ (by rw [hq]; exact hL)] at hadj
    omega

/-- On the word list `chainStream L`, with `L` at least the iteration cap,
no ladder leads from `chainWord L 0` to `farWord L`, and the run ends with
`IterationLimitExceeded`: wave `k` holds `chainWord L k`, so no wave is
empty before the cap. -/
theorem chain_run {L : Nat} (hL2 : 2 ≤ L) (hcap : nMaxIter ≤ L) (hL : L < 4294967296) :
    (¬ ∃ p, isLadder (fillDictionary (chainStream L) L) (chainWord L 0) (farWord L) p) ∧
      run (chainWord L 0) (farWord L) (chainStream L) = .error .IterationLimitExceeded := by
  have hL0 : (chainWord L 0).length = L := length_chainWord (Nat.zero_le L)
  have hlen : (chainWord L 0).length = (farWord L).length := by
    rw [hL0, length_farWord hL2]
  have hsm : chainWord L 0 ∈ fillDictionary (chainStream L) L :=
    (mem_chainDict hL2).2 (Or.inl ⟨0, Nat.zero_le L, rfl⟩)
  have htm : farWord L ∈ fillDictionary (chainStream L) L := (mem_chainDict hL2).2 (Or.inr rfl)
  obtain ⟨src, hs⟩ := getWordIndex_of_mem hsm
  obtain ⟨tgt, ht⟩ := getWordIndex_of_mem htm
  obtain ⟨hsl, hsw, -⟩ := getWordIndex_ok hs
  obtain ⟨htl, htw, -⟩ := getWordIndex_ok ht
  have hlenAll : ∀ w ∈ fillDictionary (chainStream L) L, w.length = L :=
    fun w hw => length_of_mem_fillDictionary hw
  have hc : ∀ {d i : Nat}, Reach (fillDictionary (chainStream L) L) src d i →
      ((fillDictionary (chainStream L) L).getD i []).count 99 = 0 := by
    intro d i hr
    induction hr with
    | source _ => rw [hsw]; exact count_chainWord_c L 0
    | step hp hj hadj ih =>
      rename_i k q j
      have hq := hlenAll _ (getD_mem_of_lt hp.lt_length)
      have hl : ((fillDictionary (chainStream L) L).getD q []).length
          = ((fillDictionary (chainStream L) L).getD j []).length := by
        rw [hq, hlenAll _ (getD_mem_of_lt hj)]
      have hle := count_le_add_hammingDistance 99 hl
      unfold adjacent _maxWordDistance at hadj
      rw [wordDistance_eq_hammingDistance _ (by rw [hq]; exact hL)] at hadj
      rcases (mem_chainDict hL2).1 (getD_mem_of_lt hj) with ⟨k', -, hk'⟩ | hfar
      · rw [← hk']; exact count_chainWord_c L k'
      · rw [hfar] at hadj
        rw [hfar, count_farWord_c] at hle
        omega
  have hnoReach : ∀ d, ¬ Reach (fillDictionary (chainStream L) L) src d tgt := by
    intro d hr
    have := hc hr
    rw [htw, count_farWord_c] at this
    omega
  have hchain : ∀ k, k ≤ L → ∃ i, Reach (fillDictionary (chainStream L) L) src k i ∧
      (fillDictionary (chainStream L) L).getD i [] = chainWord L k := by
    intro k
    induction k with
    | zero => exact fun _ => ⟨src, Reach.source hsl, hsw⟩
    | succ k ih =>
      intro hk
      obtain ⟨i, hri, hiw⟩ := ih (by omega)
      obtain ⟨j, hj, hjw⟩ := exists_index_of_mem
        ((mem_chainDict hL2).2 (Or.inl ⟨k + 1, hk, rfl⟩))
      refine ⟨j, Reach.step hri hj ?_, hjw⟩
      unfold adjacent _maxWordDistance
      rw [hiw, hjw]
      exact wordDistance_chainWord_succ (by omega)
  have hs' : getWordIndex (fillDictionary (chainStream L) (chainWord L 0).length)
      (chainWord L 0) = .ok src := by rw [hL0]; exact hs
  have ht' : getWordIndex (fillDictionary (chainStream L) (chainWord L 0).length)
      (farWord L) = .ok tgt := by rw [hL0]; exact ht
  constructor
  · rintro ⟨p, hp⟩
    exact hnoReach _ (reach_of_isLadder hp hs ht)
  · rcases run_cases hlen hs' ht' with ⟨K, u, w, _, hinv, hu, _⟩ |
      ⟨K, u, w, hK, hinv, hemp, _, _⟩ | ⟨u, w, _, _, hrun⟩
    · rw [hL0] at hinv
      exact absurd (hinv.sound tgt K htl hu).1 (hnoReach K)
    · rw [hL0] at hinv hemp
      obtain ⟨i, hri, hiw⟩ := hchain L (le_refl L)
      have := (hinv.closed hemp hri).count_le hlenAll hL 98
      rw [hiw, hsw, count_chainWord_b, count_chainWord_b] at this
      omega
    · exact hrun

/-- When `DoWork` fails with `NoPath`, no ladder leads from the source to
the target. -/
theorem no_ladder_of_noPath {source target : Word} {dictStream : List Nat}
    (h : run source target dictStream = .error .NoPath) :
    ¬ ∃ p, isLadder (fillDictionary dictStream source.length) source target p := by
  rintro ⟨p, hp⟩
  rcases new_cases source target dictStream with he | he | ⟨src, tgt, hlen, hs, ht, -⟩
  · rw [run_of_new_error he] at h
    cases h
  · rw [run_of_new_error he] at h
    cases h
  · have hr := reach_of_isLadder hp hs ht
    rcases run_cases hlen hs ht with ⟨K, u, w, _, _, _, hrun⟩ | ⟨K, u, w, _, hinv, hemp, hu, _⟩ |
      ⟨u, w, _, _, hrun⟩
    · rw [hrun] at h
      cases h
    · exact hinv.complete tgt (hinv.closed hemp hr) hu
    · rw [hrun] at h
      cases h

/-! ## Words longer than the counter of `wordDistance` -/

theorem hammingDistance_replicate (N : Nat) {a b : Nat} (h : a ≠ b) :
    hammingDistance (List.replicate N a) (List.replicate N b) = N := by
  induction N with
  | zero => rfl
  | succ N ih =>
    rw [List.replicate_succ, List.replicate_succ, hammingDistance_cons, if_neg h, ih]
    omega

theorem wordDistance_replicate {N : Nat} {a b : Nat} (h : a ≠ b)
    (hN : N % 4294967296 = 1) :
    wordDistance (List.replicate N a) (List.replicate N b) = 1 := by
  rw [wordDistance_eq_mod, hammingDistance_replicate N h, hN]

/-- On the word list of two lines of `N` bytes that differ at every
position, with `N` one more than a multiple of `2 ^ 32`, the counter of
`wordDistance` wraps to 1 and `DoWork` returns the two words as a path. -/
theorem wrap_run {N : Nat} (h : (97 : Nat) ≠ 98) (hN : N % 4294967296 = 1) :
    run (List.replicate N 97) (List.replicate N 98)
        (joinLines [List.replicate N 97, List.replicate N 98])
      = .ok [List.replicate N 97, List.replicate N 98] := by
  have hNpos : 0 < N := by omega
  have hdist := wordDistance_replicate h hN
  have hst : List.replicate N 97 ≠ List.replicate N 98 := by
    intro heq
    have h1 := hammingDistance_replicate N h
    rw [heq, hammingDistance_self] at h1
    omega
  have hlen : (List.replicate N 97).length = (List.replicate N 98).length := by
    rw [List.length_replicate, List.length_replicate]
  have hread : readLines (joinLines [List.replicate N 97, List.replicate N 98])
      = [List.replicate N 97, List.replicate N 98] := by
    apply readLines_joinLines _ (List.cons_ne_nil _ _)
    intro w hw h10
    rcases List.mem_cons.1 hw with hw | hw
    · rw [hw] at h10
      have := List.eq_of_mem_replicate h10
      omega
    · rw [List.mem_singleton.1 hw] at h10
      have := List.eq_of_mem_replicate h10
      omega
  have hsm : List.replicate N 97 ∈ fillDictionary
      (joinLines [List.replicate N 97, List.replicate N 98]) (List.replicate N 97).length := by
    rw [mem_fillDictionary, hread]
    exact ⟨List.mem_cons_self _ _, rfl⟩
  have htm : List.replicate N 98 ∈ fillDictionary
      (joinLines [List.replicate N 97, List.replicate N 98]) (List.replicate N 97).length := by
    rw [mem_fillDictionary, hread]
    exact ⟨List.mem_cons_of_mem _ (List.mem_singleton_self _), hlen.symm⟩
  have hdl : (fillDictionary (joinLines [List.replicate N 97, List.replicate N 98])
      (List.replicate N 97).length).length = 2 := by
    rw [(fillDictionary_perm _ _).length_eq, hread, List.filter_cons, if_pos (by simp),
      List.filter_cons, if_pos (by simp)]
    rfl
  obtain ⟨src, hs⟩ := getWordIndex_of_mem hsm
  obtain ⟨tgt, ht⟩ := getWordIndex_of_mem htm
  obtain ⟨hsl, hsw, -⟩ := getWordIndex_ok hs
  obtain ⟨htl, htw, -⟩ := getWordIndex_ok ht
  have hladder : isLadder (fillDictionary (joinLines [List.replicate N 97, List.replicate N 98])
      (List.replicate N 97).length) (List.replicate N 97) (List.replicate N 98)
      [List.replicate N 97, List.replicate N 98] := by
    refine ⟨rfl, rfl, ?_, ?_⟩
    · intro w hw
      rcases List.mem_cons.1 hw with hw | hw
      · rw [hw]; exact hsm
      · rw [List.mem_singleton.1 hw]; exact htm
    · rw [List.chain'_cons]
      exact ⟨by rw [hdist], List.chain'_singleton _⟩
  rcases run_cases hlen hs ht with ⟨K, u, w, _, _, _, hrun⟩ | ⟨K, u, w, _, _, _, _, hrun⟩ |
    ⟨u, w, hinv, _, _⟩
  · obtain ⟨src', tgt', K', hs', ht', hplen, hhead, hlast, -, -, hmin, hK0⟩ :=
      run_ok_path hrun
    rw [hs] at hs'
    rw [ht] at ht'
    cases hs'
    cases ht'
    have hK1 : K' = 1 := by
      rcases Nat.lt_trichotomy K' 1 with hlt | heq | hgt
      · exact absurd (hK0.1 (by omega)) hst
      · exact heq
      · exact absurd (reach_of_isLadder hladder hs ht) (hmin 1 hgt)
    rw [hrun]
    generalize (List.map _ _ : List Word) = path at hplen hhead hlast
    rw [hK1] at hplen
    match path, hplen, hhead, hlast with
    | [x, y], _, hhead, hlast =>
      simp only [List.head?_cons, Option.some.injEq] at hhead
      rw [List.getLast?_cons_cons, List.getLast?_singleton, Option.some.injEq] at hlast
      rw [hhead, hlast]
  · exact absurd ⟨_, hladder⟩ (no_ladder_of_noPath hrun)
  · have := hinv.depth_lt_length
    rw [hdl] at this
    unfold nMaxIter at this
    omega

/-- When the words are shorter than `2 ^ 32`, two consecutive words of a
returned path differ at exactly one position. -/
theorem short_path_one_substitution {source target : Word} {dictStream : List Nat}
    {path : List Word} (h : run source target dictStream = .ok path)
    (hshort : source.length < 4294967296) :
    List.Chain' (fun a b => a.length = b.length ∧
        ((a.zip b).filter (fun p => decide (p.1 ≠ p.2))).length = 1) path ∧
      (path.length = 1 ↔ source = target) := by
  obtain ⟨src, tgt, K, -, -, hlen, -, -, hmem, hch, -, hK⟩ := run_ok_path h
  constructor
  · have hall : ∀ w ∈ path, w.length < 4294967296 := fun w hw => by
      rw [length_of_mem_fillDictionary (hmem w hw)]
      exact hshort
    have key : ∀ l : List Word, (∀ w ∈ l, w.length < 4294967296) →
        List.Chain' (fun a b => a.length = b.length ∧ a ≠ b ∧ wordDistance a b ≤ 1) l →
        List.Chain' (fun a b => a.length = b.length ∧
          ((a.zip b).filter (fun p => decide (p.1 ≠ p.2))).length = 1) l := by
      intro l
      induction l with
      | nil => exact fun _ _ => List.chain'_nil
      | cons a p ih =>
        intro hal hc
        cases p with
        | nil => exact List.chain'_singleton _
        | cons b p =>
          rw [List.chain'_cons] at hc ⊢
          refine ⟨?_, ih (fun w hw => hal w (List.mem_cons_of_mem _ hw)) hc.2⟩
          obtain ⟨hl, hne, hle⟩ := hc.1
          refine ⟨hl, ?_⟩
          rw [← hammingDistance_eq_countP]
          rw [wordDistance_eq_hammingDistance b (hal a (List.mem_cons_self _ _))] at hle
          have h0 : hammingDistance a b ≠ 0 :=
            fun h0 => hne (eq_of_hammingDistance_eq_zero hl h0)
          omega
    exact key path hall hch
  · rw [hlen, ← hK]
    omega

/-! ## The claims -/

/-- C2 (endpoints). When `DoWork` returns a path, the path is not empty, it
starts with the source word, it ends with the target word, and all its words
are words of the filtered dictionary. -/
theorem path_endpoints (source target : Word) (dictStream : List Nat) (path : List Word)
    (h : run source target dictStream = .ok path) :
    path ≠ [] ∧ path.head? = some source ∧ path.getLast? = some target ∧
      ∀ w, w ∈ path → w ∈ fillDictionary dictStream source.length := by
  obtain ⟨src, tgt, K, -, -, hlen, hhead, hlast, hmem, -, -, -⟩ := run_ok_path h
  refine ⟨?_, hhead, hlast, hmem⟩
  intro hnil
  rw [hnil] at hlen
  simp at hlen

/-- C3 (adjacency bound). When `DoWork` returns a path, two consecutive
words of the path have the same size and `wordDistance` at most 1. -/
theorem path_adjacency_bound (source target : Word) (dictStream : List Nat)
    (path : List Word) (h : run source target dictStream = .ok path) :
    List.Chain' (fun a b => a.length = b.length ∧ wordDistance a b ≤ 1) path := by
  obtain ⟨src, tgt, K, -, -, -, -, -, -, hch, -, -⟩ := run_ok_path h
  exact hch.imp (fun _ _ hab => ⟨hab.1, hab.2.2⟩)

/-- C4 (exactly one substitution per step), at the failing input: the word
list of the two lines `wrapWord 97` and `wrapWord 98`, of `2 ^ 32 + 1` bytes
each, which differ at every position. The counter of `wordDistance` wraps to
1, so `DoWork` returns the path of these two words, whose consecutive words
differ at `2 ^ 32 + 1` positions, not at one. -/
theorem exactly_one_substitution_failing_input :
    run (wrapWord 97) (wrapWord 98) wrapStream = .ok [wrapWord 97, wrapWord 98] ∧
    wordDistance (wrapWord 97) (wrapWord 98) = 1 ∧
    (((wrapWord 97).zip (wrapWord 98)).filter (fun p => decide (p.1 ≠ p.2))).length
      = 4294967297 := by
  unfold wrapStream wrapWord
  refine ⟨wrap_run (by omega) (by omega), wordDistance_replicate (by omega) (by omega), ?_⟩
  rw [← hammingDistance_eq_countP]
  exact hammingDistance_replicate 4294967297 (by omega)

/-- C5, as stated, fails: on the word list of the 10001 words
`chainWord 10000 k` and of `farWord 10000`, the source `chainWord 10000 0`
and the target `farWord 10000` have the same size and are in the filtered
dictionary, no ladder connects them (neither by the test of the code nor by
the Hamming distance), and `DoWork` fails with `IterationLimitExceeded`, not
with `NoPath`. -/
theorem unreachable_target_counterexample :
    (chainWord 10000 0).length = (farWord 10000).length ∧
    chainWord 10000 0 ∈ fillDictionary (chainStream 10000) (chainWord 10000 0).length ∧
    farWord 10000 ∈ fillDictionary (chainStream 10000) (chainWord 10000 0).length ∧
    (¬ ∃ p, isLadder (fillDictionary (chainStream 10000) (chainWord 10000 0).length)
      (chainWord 10000 0) (farWord 10000) p) ∧
    (¬ ∃ p, isHammingLadder (fillDictionary (chainStream 10000) (chainWord 10000 0).length)
      (chainWord 10000 0) (farWord 10000) p) ∧
    run (chainWord 10000 0) (farWord 10000) (chainStream 10000)
      = .error .IterationLimitExceeded ∧
    run (chainWord 10000 0) (farWord 10000) (chainStream 10000) ≠ .error .NoPath := by
  have h2 : 2 ≤ 10000 := by omega
  have hL0 : (chainWord 10000 0).length = 10000 := length_chainWord (Nat.zero_le _)
  have hrun := chain_run h2 (le_refl _) (by omega)
  rw [hL0]
  refine ⟨(length_farWord h2).symm, (mem_chainDict h2).2 (Or.inl ⟨0, Nat.zero_le _, rfl⟩),
    (mem_chainDict h2).2 (Or.inr rfl), hrun.1,
    fun ⟨p, hp⟩ => hrun.1 ⟨p, isLadder_of_isHammingLadder hp⟩, hrun.2, ?_⟩
  rw [hrun.2]
  intro hh
  cases hh

/-- C5 (unreachable target), amended. For a source and a target of the same
size, below `2 ^ 32`, that are both in the filtered dictionary, when no
sequence of dictionary words with consecutive Hamming distance at most 1
connects them `DoWork` returns no path: it fails with `NoPath` or with
`IterationLimitExceeded`, and with `NoPath` when the filtered dictionary has
at most `nMaxIter` (10000) words. -/
theorem unreachable_target_fails (source target : Word) (dictStream : List Nat)
    (hlen : source.length = target.length) (hshort : source.length < 4294967296)
    (hs : source ∈ fillDictionary dictStream source.length)
    (ht : target ∈ fillDictionary dictStream source.length)
    (hno : ¬ ∃ p, isHammingLadder (fillDictionary dictStream source.length) source target p) :
    (run source target dictStream = .error .NoPath ∨
      run source target dictStream = .error .IterationLimitExceeded) ∧
    ((fillDictionary dictStream source.length).length ≤ nMaxIter →
      run source target dictStream = .error .NoPath) := by
  obtain ⟨src, hs⟩ := getWordIndex_of_mem hs
  obtain ⟨tgt, ht⟩ := getWordIndex_of_mem ht
  obtain ⟨hsl, hsw, -⟩ := getWordIndex_ok hs
  obtain ⟨htl, htw, -⟩ := getWordIndex_ok ht
  rcases run_cases hlen hs ht with ⟨K, u, w, _, hinv, hu, _⟩ | ⟨K, u, w, _, _, _, _, hrun⟩ |
    ⟨u, w, hinv, _, hrun⟩
  · exfalso
    obtain ⟨p, hp, -⟩ := exists_isLadder_of_reach (hinv.sound tgt K htl hu).1
    rw [hsw, htw] at hp
    exact hno ⟨p, isHammingLadder_of_isLadder
      (fun w hw => length_of_mem_fillDictionary hw) hshort hp⟩
  · exact ⟨Or.inl hrun, fun _ => hrun⟩
  · refine ⟨Or.inr hrun, fun hn => ?_⟩
    have := hinv.depth_lt_length
    omega

/-- C6 (`NoPath` is sound). When `DoWork` fails with `NoPath`, no ladder of
the filtered dictionary leads from the source to the target: neither a
ladder by the test of the code, nor a sequence of dictionary words with
consecutive Hamming distance at most 1. -/
theorem noPath_sound (source target : Word) (dictStream : List Nat)
    (h : run source target dictStream = .error .NoPath) :
    (¬ ∃ p, isLadder (fillDictionary dictStream source.length) source target p) ∧
    (¬ ∃ p, isHammingLadder (fillDictionary dictStream source.length) source target p) :=
  ⟨no_ladder_of_noPath h,
    fun ⟨p, hp⟩ => no_ladder_of_noPath h ⟨p, isLadder_of_isHammingLadder hp⟩⟩

/-- C7 (reflexivity). For a word `w` that is a line of the word list, the
run from `w` to `w` succeeds and returns the one-word path `[w]`, whatever
else the word list holds. -/
theorem reflexivity (w : Word) (dictStream : List Nat) (h : w ∈ readLines dictStream) :
    run w w dictStream = .ok [w] := by
  have hmem : w ∈ fillDictionary dictStream w.length := mem_fillDictionary.2 ⟨h, rfl⟩
  obtain ⟨idx, hidx⟩ := getWordIndex_of_mem hmem
  obtain ⟨hl, hw, -⟩ := getWordIndex_ok hidx
  have hinv := BfsInv.init (fillDictionary dictStream w.length) hl
  rw [run_eq_doWorkLoop rfl hidx hidx]
  show (doWorkLoop _ _ (9999 + 1) 0 _ _).2 = _
  rw [doWorkLoop]
  have hres : isResultAchieved idx [idx] = true := isResultAchieved_iff.2 (List.mem_singleton_self _)
  simp only [hres, if_true]
  rw [getResult_eq hinv hl hinv.getD_src]
  simp only [backIndexes, List.map_cons, List.map_nil, hw]

/-- C8 (length mismatch rejection). When the source and the target differ in
size, the constructor fails with `InvalidInput` for every dictionary stream,
so before any word is looked up, and so does the whole run. -/
theorem length_mismatch_rejection (source target : Word)
    (h : source.length ≠ target.length) (dictStream : List Nat) :
    WordConverter.new source target dictStream = .error .InvalidInput ∧
      run source target dictStream = .error .InvalidInput :=
  ⟨new_invalidInput dictStream h, run_of_new_error (new_invalidInput dictStream h)⟩

/-- C9 (`WordNotFound` exactly when a word is absent). For a source and a
target of the same size, the constructor fails with `WordNotFound` exactly
when one of them is not in the filtered dictionary; when both are, it
succeeds, `_dict` is the filtered dictionary, and `_sourceWordIndex`,
`_targetWordIndex` are the smallest indices of the source, of the target. -/
theorem wordNotFound_iff_absent (source target : Word) (dictStream : List Nat)
    (hlen : source.length = target.length) :
    (WordConverter.new source target dictStream = .error .WordNotFound ↔
      (source ∉ fillDictionary dictStream source.length ∨
        target ∉ fillDictionary dictStream source.length)) ∧
    (source ∈ fillDictionary dictStream source.length →
      target ∈ fillDictionary dictStream source.length →
      ∃ wc, WordConverter.new source target dictStream = .ok wc ∧
        wc._dict = fillDictionary dictStream source.length ∧
        wc._sourceWordIndex < wc._dict.length ∧
        wc._dict.getD wc._sourceWordIndex [] = source ∧
        (∀ k, k < wc._sourceWordIndex → wc._dict.getD k [] ≠ source) ∧
        wc._targetWordIndex < wc._dict.length ∧
        wc._dict.getD wc._targetWordIndex [] = target ∧
        (∀ k, k < wc._targetWordIndex → wc._dict.getD k [] ≠ target)) := by
  have hboth : source ∈ fillDictionary dictStream source.length →
      target ∈ fillDictionary dictStream source.length →
      ∃ wc, WordConverter.new source target dictStream = .ok wc ∧
        wc._dict = fillDictionary dictStream source.length ∧
        wc._sourceWordIndex < wc._dict.length ∧
        wc._dict.getD wc._sourceWordIndex [] = source ∧
        (∀ k, k < wc._sourceWordIndex → wc._dict.getD k [] ≠ source) ∧
        wc._targetWordIndex < wc._dict.length ∧
        wc._dict.getD wc._targetWordIndex [] = target ∧
        (∀ k, k < wc._targetWordIndex → wc._dict.getD k [] ≠ target) := by
    intro hs ht
    obtain ⟨src, hs⟩ := getWordIndex_of_mem hs
    obtain ⟨tgt, ht⟩ := getWordIndex_of_mem ht
    obtain ⟨hs1, hs2, hs3⟩ := getWordIndex_ok hs
    obtain ⟨ht1, ht2, ht3⟩ := getWordIndex_ok ht
    exact ⟨_, new_ok hlen hs ht, rfl, hs1, hs2, hs3, ht1, ht2, ht3⟩
  refine ⟨⟨?_, ?_⟩, hboth⟩
  · intro hnew
    by_contra hcon
    rw [not_or, not_not, not_not] at hcon
    obtain ⟨wc, hwc, -⟩ := hboth hcon.1 hcon.2
    rw [hwc] at hnew
    cases hnew
  · intro habs
    by_cases ht : target ∈ fillDictionary dictStream source.length
    · obtain ⟨tgt, ht⟩ := getWordIndex_of_mem ht
      rcases habs with hs | ht'
      · exact new_error_source hlen ht (getWordIndex_of_not_mem hs)
      · exact absurd (getD_mem_of_lt (getWordIndex_ok ht).1) (by rw [(getWordIndex_ok ht).2.1]; exact ht')
    · exact new_error_target hlen (getWordIndex_of_not_mem ht)

/-- C10 (dictionary construction). For every stream of lines and every
required size, the dictionary built by `fillDictionary` is sorted in
non-decreasing lexicographic order, and it is a permutation of the lines of
the stream that have the required size. -/
theorem dictionary_construction (dictStream : List Nat) (requiredLength : Nat) :
    List.Sorted (fun a b : Word => a ≤ b) (fillDictionary dictStream requiredLength) ∧
      List.Perm (fillDictionary dictStream requiredLength)
        ((readLines dictStream).filter (fun line => decide (line.length = requiredLength))) :=
  ⟨fillDictionary_sorted dictStream requiredLength, fillDictionary_perm dictStream requiredLength⟩

/-! ## The claims at concrete inputs -/

/-- C2 at the word list cat, cog, cot, cag and the path cat, cag, cog. -/
theorem path_endpoints_witness :
    ([[99, 97, 116], [99, 97, 103], [99, 111, 103]] : List Word) ≠ [] ∧
    ([[99, 97, 116], [99, 97, 103], [99, 111, 103]] : List Word).head? = some [99, 97, 116] ∧
    ([[99, 97, 116], [99, 97, 103], [99, 111, 103]] : List Word).getLast? = some [99, 111, 103] ∧
    [99, 97, 103] ∈ fillDictionary
      [99, 97, 116, 10, 99, 111, 103, 10, 99, 111, 116, 10, 99, 97, 103]
      ([99, 97, 116] : Word).length :=
  have h := path_endpoints [99, 97, 116] [99, 111, 103]
    [99, 97, 116, 10, 99, 111, 103, 10, 99, 111, 116, 10, 99, 97, 103]
    [[99, 97, 116], [99, 97, 103], [99, 111, 103]] (by rfl)
  ⟨h.1, h.2.1, h.2.2.1, h.2.2.2 [99, 97, 103] (by decide)⟩

/-- C3 at the word list cat, cog, cot, cag and the path cat, cag, cog. -/
theorem path_adjacency_bound_witness :
    List.Chain' (fun a b : Word => a.length = b.length ∧ wordDistance a b ≤ 1)
      [[99, 97, 116], [99, 97, 103], [99, 111, 103]] :=
  path_adjacency_bound [99, 97, 116] [99, 111, 103]
    [99, 97, 116, 10, 99, 111, 103, 10, 99, 111, 116, 10, 99, 97, 103]
    [[99, 97, 116], [99, 97, 103], [99, 111, 103]] (by rfl)

/-- C5, amended, at the word list cat, cot, dog: no ladder leads from cat to
dog, and the run fails with `NoPath`. -/
theorem unreachable_target_fails_witness :
    run [99, 97, 116] [100, 111, 103] [99, 97, 116, 10, 99, 111, 116, 10, 100, 111, 103]
      = .error .NoPath :=
  (unreachable_target_fails [99, 97, 116] [100, 111, 103]
    [99, 97, 116, 10, 99, 111, 116, 10, 100, 111, 103] (by rfl) (by decide) (by decide)
    (by decide)
    (fun ⟨p, hp⟩ => no_ladder_of_noPath (by rfl) ⟨p, isLadder_of_isHammingLadder hp⟩)).2
    (by decide)

/-- C6 at the word list cat, cot, dog, from cat to dog. -/
theorem noPath_sound_witness :
    (¬ ∃ p, isLadder
      (fillDictionary [99, 97, 116, 10, 99, 111, 116, 10, 100, 111, 103]
        ([99, 97, 116] : Word).length)
      [99, 97, 116] [100, 111, 103] p) ∧
    (¬ ∃ p, isHammingLadder
      (fillDictionary [99, 97, 116, 10, 99, 111, 116, 10, 100, 111, 103]
        ([99, 97, 116] : Word).length)
      [99, 97, 116] [100, 111, 103] p) :=
  noPath_sound [99, 97, 116] [100, 111, 103]
    [99, 97, 116, 10, 99, 111, 116, 10, 100, 111, 103] (by rfl)

/-- C7 at the word list dog, cat, with a newline at its end. -/
theorem reflexivity_witness :
    run [99, 97, 116] [99, 97, 116] [100, 111, 103, 10, 99, 97, 116, 10]
      = .ok [[99, 97, 116]] :=
  reflexivity [99, 97, 116] [100, 111, 103, 10, 99, 97, 116, 10] (by decide)

/-- C8 at the words cat and cats. -/
theorem length_mismatch_rejection_witness :
    WordConverter.new [99, 97, 116] [99, 97, 116, 115] [99, 97, 116, 10, 99, 97, 116, 115]
        = .error .InvalidInput ∧
      run [99, 97, 116] [99, 97, 116, 115] [99, 97, 116, 10, 99, 97, 116, 115]
        = .error .InvalidInput :=
  length_mismatch_rejection [99, 97, 116] [99, 97, 116, 115] (by decide)
    [99, 97, 116, 10, 99, 97, 116, 115]

/-- C9 at the word list cot, cat, cat: the target cat has the index 0, the
source cot the index 2. -/
theorem wordNotFound_iff_absent_witness :
    (WordConverter.new [99, 111, 116] [99, 97, 116]
        [99, 111, 116, 10, 99, 97, 116, 10, 99, 97, 116] = .error .WordNotFound ↔
      (([99, 111, 116] : Word) ∉ fillDictionary
          [99, 111, 116, 10, 99, 97, 116, 10, 99, 97, 116] ([99, 111, 116] : Word).length ∨
        ([99, 97, 116] : Word) ∉ fillDictionary
          [99, 111, 116, 10, 99, 97, 116, 10, 99, 97, 116] ([99, 111, 116] : Word).length)) ∧
    ∃ wc, WordConverter.new [99, 111, 116] [99, 97, 116]
        [99, 111, 116, 10, 99, 97, 116, 10, 99, 97, 116] = .ok wc ∧
      wc._sourceWordIndex = 2 ∧ wc._targetWordIndex = 0 :=
  have h := wordNotFound_iff_absent [99, 111, 116] [99, 97, 116]
    [99, 111, 116, 10, 99, 97, 116, 10, 99, 97, 116] (by rfl)
  ⟨h.1, ⟨_, by rfl, by rfl, by rfl⟩⟩

/-! ## The dictionary under repetition and reordering of the lines -/

theorem new_ok_dict {s t : Word} {stream : List Nat} {wc : WordConverter}
    (h : WordConverter.new s t stream = .ok wc) :
    ∃ src tgt, s.length = t.length ∧
      getWordIndex (fillDictionary stream s.length) s = .ok src ∧
      getWordIndex (fillDictionary stream s.length) t = .ok tgt ∧
      wc = { _dict := fillDictionary stream s.length, _isWordUsed := [],
             _sourceWordIndex := src, _targetWordIndex := tgt } := by
  rcases new_cases s t stream with he | he | ⟨src, tgt, hlen, hs, ht, hnew⟩
  · rw [he] at h
    cases h
  · rw [he] at h
    cases h
  · rw [hnew] at h
    cases h
    exact ⟨src, tgt, hlen, hs, ht, rfl⟩

/-- The dictionary depends on the lines of the stream only as a multiset. -/
theorem fillDictionary_congr {stream₁ stream₂ : List Nat}
    (h : List.Perm (readLines stream₁) (readLines stream₂)) (wordLen : Nat) :
    fillDictionary stream₁ wordLen = fillDictionary stream₂ wordLen := by
  haveI := wordLe_isTotal
  haveI := wordLe_isTrans
  haveI := wordLe_isAntisymm
  rw [fillDictionary_eq, fillDictionary_eq]
  apply List.eq_of_perm_of_sorted (r := wordLe)
  · exact ((List.perm_insertionSort _ _).trans (h.filter _)).trans
      (List.perm_insertionSort _ _).symm
  · exact List.sorted_insertionSort _ _
  · exact List.sorted_insertionSort _ _

/-! ## The calls of `markAsUsed` -/

theorem Entry.at_start (dict : List Word) {src : Nat} (hsrc : src < dict.length) :
    Entry dict src 0 (List.replicate dict.length (-1)) [src] := by
  refine ⟨BfsInv.init dict hsrc, List.length_replicate _ _, ?_, ?_⟩
  · intro i hi
    rw [List.mem_singleton.1 hi]
    exact ⟨hsrc, getD_replicate_invalid _ _⟩
  · intro i d _ hd
    rw [getD_replicate_invalid] at hd
    omega

theorem Entry.next {dict : List Word} {src k : Nat} {used : List Int} {wave : List Nat}
    (h : Entry dict src k used wave)
    (hne : getSimilarWords dict (markAsUsed used wave k) wave ≠ []) :
    Entry dict src (k + 1) (markAsUsed used wave k)
      (getSimilarWords dict (markAsUsed used wave k) wave) := by
  refine ⟨h.inv.step hne, h.inv.length_eq, ?_, ?_⟩
  · intro i hi
    obtain ⟨h1, h2, -⟩ := mem_getSimilarWords.1 hi
    exact ⟨h1, h2⟩
  · intro i d hi hd
    exact h.inv.sound i d hi hd

/-- Every call of `markAsUsed` is made in a state `Entry`, with a wave
number between the first one and the number of iterations. -/
theorem Entry.of_mem_doWorkCalls {dict : List Word} {src tgt : Nat} :
    ∀ (remaining k : Nat) (used : List Int) (wave : List Nat), Entry dict src k used wave →
      ∀ c, c ∈ doWorkCalls dict tgt remaining k used wave →
        Entry dict src c.1 c.2.1 c.2.2 ∧ k ≤ c.1 ∧ c.1 < k + remaining
  | 0, _, _, _, _, c, hc => by
    rw [doWorkCalls] at hc
    exact absurd hc (List.not_mem_nil _)
  | remaining + 1, k, used, wave, h, c, hc => by
    rw [doWorkCalls] at hc
    rcases List.mem_cons.1 hc with hc | hc
    · rw [hc]
      exact ⟨h, le_refl _, by omega⟩
    · by_cases hres : isResultAchieved tgt wave = true
      · rw [if_pos hres] at hc
        exact absurd hc (List.not_mem_nil _)
      · rw [if_neg hres] at hc
        by_cases hemp : (getSimilarWords dict (markAsUsed used wave k) wave).length = 0
        · rw [if_pos hemp] at hc
          exact absurd hc (List.not_mem_nil _)
        · rw [if_neg hemp] at hc
          have hne : getSimilarWords dict (markAsUsed used wave k) wave ≠ [] :=
            fun hh => hemp (by rw [hh]; rfl)
          obtain ⟨h1, h2, h3⟩ :=
            Entry.of_mem_doWorkCalls remaining (k + 1) _ _ (h.next hne) c hc
          exact ⟨h1, by omega, by omega⟩

/-- A wave number, once written, is the one `DoWork` leaves: the later
calls of `markAsUsed` write only entries that hold `-1`. -/
theorem doWorkLoop_keeps {dict : List Word} {src tgt : Nat} :
    ∀ (remaining k : Nat) (used : List Int) (wave : List Nat), Entry dict src k used wave →
      ∀ i, used.getD i _invalidIsWordUsed ≠ -1 →
        (doWorkLoop dict tgt remaining k used wave).1.getD i _invalidIsWordUsed
          = used.getD i _invalidIsWordUsed
  | 0, _, _, _, _, _, _ => rfl
  | remaining + 1, k, used, wave, h, i, hi => by
    have hmark : (markAsUsed used wave k).getD i _invalidIsWordUsed
        = used.getD i _invalidIsWordUsed := by
      rw [getD_markAsUsed, if_neg]
      intro hh
      exact hi (h.fresh i hh.1).2
    rw [doWorkLoop]
    by_cases hres : isResultAchieved tgt wave = true
    · simp only [hres, if_true]
      exact hmark
    · simp only [hres, Bool.false_eq_true, if_false]
      by_cases hemp : (getSimilarWords dict (markAsUsed used wave k) wave).length = 0
      · simp only [hemp, if_true]
        exact hmark
      · simp only [hemp, if_false]
        have hne : getSimilarWords dict (markAsUsed used wave k) wave ≠ [] :=
          fun hh => hemp (by rw [hh]; rfl)
        rw [doWorkLoop_keeps remaining (k + 1) _ _ (h.next hne) i (by rw [hmark]; exact hi)]
        exact hmark

/-- What `DoWork` leaves in `_isWordUsed` agrees with every state before a
call of `markAsUsed` on the entries written by then, and holds the wave
number of the call at the indices of its wave. -/
theorem doWorkLoop_final {dict : List Word} {src tgt : Nat} :
    ∀ (remaining k : Nat) (used : List Int) (wave : List Nat), Entry dict src k used wave →
      ∀ c, c ∈ doWorkCalls dict tgt remaining k used wave →
        (∀ i, c.2.1.getD i _invalidIsWordUsed ≠ -1 →
          (doWorkLoop dict tgt remaining k used wave).1.getD i _invalidIsWordUsed
            = c.2.1.getD i _invalidIsWordUsed) ∧
        (∀ i, i ∈ c.2.2 →
          (doWorkLoop dict tgt remaining k used wave).1.getD i _invalidIsWordUsed
            = (c.1 : Int))
  | 0, _, _, _, _, c, hc => by
    rw [doWorkCalls] at hc
    exact absurd hc (List.not_mem_nil _)
  | remaining + 1, k, used, wave, h, c, hc => by
    have hwave : ∀ i, i ∈ wave →
        (markAsUsed used wave k).getD i _invalidIsWordUsed = (k : Int) := by
      intro i hi
      rw [getD_markAsUsed, if_pos ⟨hi, by rw [h.length_eq]; exact (h.fresh i hi).1⟩]
    have hhead : (∀ i, used.getD i _invalidIsWordUsed ≠ -1 →
          (doWorkLoop dict tgt (remaining + 1) k used wave).1.getD i _invalidIsWordUsed
            = used.getD i _invalidIsWordUsed) ∧
        (∀ i, i ∈ wave →
          (doWorkLoop dict tgt (remaining + 1) k used wave).1.getD i _invalidIsWordUsed
            = (k : Int)) := by
      refine ⟨doWorkLoop_keeps (remaining + 1) k used wave h, ?_⟩
      intro i hi
      rw [doWorkLoop]
      by_cases hres : isResultAchieved tgt wave = true
      · simp only [hres, if_true]
        exact hwave i hi
      · simp only [hres, Bool.false_eq_true, if_false]
        by_cases hemp : (getSimilarWords dict (markAsUsed used wave k) wave).length = 0
        · simp only [hemp, if_true]
          exact hwave i hi
        · simp only [hemp, if_false]
          have hne : getSimilarWords dict (markAsUsed used wave k) wave ≠ [] :=
            fun hh => hemp (by rw [hh]; rfl)
          rw [doWorkLoop_keeps remaining (k + 1) _ _ (h.next hne) i
            (by rw [hwave i hi]; omega)]
          exact hwave i hi
    rw [doWorkCalls] at hc
    rcases List.mem_cons.1 hc with hc | hc
    · rw [hc]
      exact hhead
    · by_cases hres : isResultAchieved tgt wave = true
      · rw [if_pos hres] at hc
        exact absurd hc (List.not_mem_nil _)
      · rw [if_neg hres] at hc
        by_cases hemp : (getSimilarWords dict (markAsUsed used wave k) wave).length = 0
        · rw [if_pos hemp] at hc
          exact absurd hc (List.not_mem_nil _)
        · rw [if_neg hemp] at hc
          have hne : getSimilarWords dict (markAsUsed used wave k) wave ≠ [] :=
            fun hh => hemp (by rw [hh]; rfl)
          have ih := doWorkLoop_final remaining (k + 1) _ _ (h.next hne) c hc
          rw [doWorkLoop]
          simp only [hres, Bool.false_eq_true, if_false, hemp]
          exact ih

/-! ## The state `DoWork` leaves -/

theorem find?_range_first {p : Nat → Bool} {n j : Nat}
    (h : (List.range n).find? p = some j) : ∀ j', j' < j → p j' = false := by
  intro j' hj'
  obtain ⟨-, as, bs, hsplit, has⟩ := List.find?_eq_some.1 h
  have hjn : j < n := List.mem_range.1 (List.mem_of_find?_eq_some h)
  have hmem : j' ∈ as ++ j :: bs := by
    rw [← hsplit]
    exact List.mem_range.2 (by omega)
  have hpw : List.Pairwise (fun a b : Nat => a < b) (as ++ j :: bs) := by
    rw [← hsplit]
    exact List.pairwise_lt_range n
  rcases List.mem_append.1 hmem with hin | hin
  · have := has j' hin
    simpa using this
  · exfalso
    rcases List.mem_cons.1 hin with hin | hin
    · omega
    · have h2 := (List.pairwise_append.1 hpw).2.1
      have := (List.pairwise_cons.1 h2).1 j' hin
      omega

/-- The index `findPrevious` returns is the smallest one that passes the
test of the inner loop of `getResult`. -/
theorem findPrevious_first {dict : List Word} {used : List Int} {word : Word} {wave : Int}
    {p : Nat} (h : findPrevious dict used word wave = some p) :
    ∀ j, j < p → ¬ (used.getD j _invalidIsWordUsed = wave ∧
      wordDistance word (dict.getD j []) ≤ _maxWordDistance) := by
  intro j hj hcon
  unfold findPrevious at h
  have := find?_range_first h j hj
  simp only [Bool.and_eq_false_imp, decide_eq_true_eq, decide_eq_false_iff_not] at this
  exact this hcon.1 hcon.2

theorem DoWork_fst (wc : WordConverter) :
    wc.DoWork.1 = { wc with _isWordUsed := (doWorkLoop wc._dict wc._targetWordIndex nMaxIter 0
      (List.replicate wc._dict.length (-1)) [wc._sourceWordIndex]).1 } := rfl

theorem DoWork_snd (wc : WordConverter) :
    wc.DoWork.2 = (doWorkLoop wc._dict wc._targetWordIndex nMaxIter 0
      (List.replicate wc._dict.length (-1)) [wc._sourceWordIndex]).2 := rfl

/-- How `DoWork` ends on a converter whose source index is an index of the
dictionary, with the state it leaves: the three cases of `doWorkLoop_spec`,
the path being the one of `backIndexes`. -/
theorem DoWork_cases (wc : WordConverter) (hsrc : wc._sourceWordIndex < wc._dict.length) :
    (∃ K w, K < nMaxIter ∧
        BfsInv wc._dict wc._sourceWordIndex K wc.DoWork.1._isWordUsed w ∧
        wc._targetWordIndex < wc._dict.length ∧
        wc.DoWork.1._isWordUsed.getD wc._targetWordIndex _invalidIsWordUsed = (K : Int) ∧
        wc.DoWork.2 = .ok ((backIndexes wc._dict wc.DoWork.1._isWordUsed K
          wc._targetWordIndex).map (fun j => wc._dict.getD j []))) ∨
    (∃ K w, K < nMaxIter ∧
        BfsInv wc._dict wc._sourceWordIndex K wc.DoWork.1._isWordUsed w ∧
        getSimilarWords wc._dict wc.DoWork.1._isWordUsed w = [] ∧
        wc.DoWork.1._isWordUsed.getD wc._targetWordIndex _invalidIsWordUsed = -1 ∧
        wc.DoWork.2 = .error .NoPath) ∨
    (∃ w, BfsInv wc._dict wc._sourceWordIndex nMaxIter
          (markAsUsed wc.DoWork.1._isWordUsed w nMaxIter) w ∧
        wc.DoWork.2 = .error .IterationLimitExceeded) := by
  rw [DoWork_fst, DoWork_snd]
  rcases @doWorkLoop_spec wc._dict wc._sourceWordIndex wc._targetWordIndex nMaxIter 0 _ _
      (BfsInv.init wc._dict hsrc) (fun m hm => absurd hm (Nat.not_lt_zero _)) with
    ⟨K, u, w, _, h2, h3, h4, h5, h6⟩ | ⟨K, u, w, _, h2, h3, h4, h5, h6⟩ | ⟨u, w, h1, _, h3⟩
  · refine Or.inl ⟨K, w, by omega, ?_, h4, ?_, ?_⟩
    · rw [h6]; exact h3
    · rw [h6]; exact h5
    · rw [h6]
      exact getResult_eq h3 h4 h5
  · refine Or.inr (Or.inl ⟨K, w, by omega, ?_, ?_, ?_, ?_⟩)
    · rw [h6]; exact h3
    · rw [h6]; exact h4
    · rw [h6]; exact h5
    · rw [h6]
  · refine Or.inr (Or.inr ⟨w, ?_, ?_⟩)
    · rw [h3]
      rw [Nat.zero_add] at h1
      exact h1
    · rw [h3]

theorem run_of_new_ok {s t : Word} {stream : List Nat} {wc : WordConverter}
    (h : WordConverter.new s t stream = .ok wc) : run s t stream = wc.DoWork.2 := by
  unfold run
  rw [h]

theorem new_ok_source_lt {s t : Word} {stream : List Nat} {wc : WordConverter}
    (h : WordConverter.new s t stream = .ok wc) : wc._sourceWordIndex < wc._dict.length := by
  obtain ⟨src, tgt, -, hs, -, hwc⟩ := new_ok_dict h
  rw [hwc]
  exact (getWordIndex_ok hs).1

/-! ## The claims on the dictionary, termination and the test of the source -/

/-- C11, as stated, fails: from the word list cat, cat the constructor
builds the dictionary cat, cat, where the word cat stands at the indices 0
and 1. -/
theorem dictionary_uniqueness_counterexample :
    WordConverter.new [99, 97, 116] [99, 97, 116] [99, 97, 116, 10, 99, 97, 116]
      = .ok { _dict := [[99, 97, 116], [99, 97, 116]], _isWordUsed := [],
              _sourceWordIndex := 0, _targetWordIndex := 0 } ∧
    ([[99, 97, 116], [99, 97, 116]] : List Word).getD 0 []
      = ([[99, 97, 116], [99, 97, 116]] : List Word).getD 1 [] ∧
    ¬ ([[99, 97, 116], [99, 97, 116]] : List Word).Nodup :=
  ⟨by rfl, by rfl, by decide⟩

/-- C11 (dictionary uniqueness), amended. The dictionary built by the
constructor holds every word as many times as the word list holds it among
its lines of the size of the source: repeated lines are kept. No word
stands at two indices of `_dict` exactly when no such line is repeated. -/
theorem dictionary_multiplicity (source target : Word) (dictStream : List Nat)
    (wc : WordConverter) (hnew : WordConverter.new source target dictStream = .ok wc) :
    (∀ w : Word, wc._dict.countP (fun x => decide (x = w))
      = ((readLines dictStream).filter
          (fun line => decide (line.length = source.length))).countP
            (fun x => decide (x = w))) ∧
    (wc._dict.Nodup ↔ ((readLines dictStream).filter
      (fun line => decide (line.length = source.length))).Nodup) := by
  obtain ⟨src, tgt, -, -, -, hwc⟩ := new_ok_dict hnew
  rw [hwc]
  exact ⟨fun w => (fillDictionary_perm dictStream source.length).countP_eq _,
    (fillDictionary_perm dictStream source.length).nodup_iff⟩

/-- C12, as stated, fails: on the word list of the words `chainWord 10000 k`
and of `farWord 10000` the constructor succeeds, and `DoWork` ends neither
by returning a path nor with `NoPath`, but with `IterationLimitExceeded`. -/
theorem termination_counterexample :
    ∃ wc, WordConverter.new (chainWord 10000 0) (farWord 10000) (chainStream 10000) = .ok wc ∧
      wc.DoWork.2 = .error .IterationLimitExceeded := by
  have hrun := (chain_run (L := 10000) (by omega) (le_refl _) (by omega)).2
  rcases new_cases (chainWord 10000 0) (farWord 10000) (chainStream 10000) with
    he | he | ⟨src, tgt, -, -, -, hnew⟩
  · rw [run_of_new_error he] at hrun
    cases hrun
  · rw [run_of_new_error he] at hrun
    cases hrun
  · exact ⟨_, hnew, by rw [← run_of_new_ok hnew]; exact hrun⟩

/-- C12 (termination within the size of the dictionary), amended. For a
converter the constructor built, with `n` words in its dictionary, every
iteration of the loop of `DoWork` runs at a `waveIndex` below `n` (and below
`nMaxIter`); `DoWork` ends by returning a path or with `NoPath`, or, only
when `n` is above `nMaxIter` (10000), with `IterationLimitExceeded`; so for
`n` at most 10000 it never fails with `IterationLimitExceeded`. -/
theorem termination_within_dictionary (source target : Word) (dictStream : List Nat)
    (wc : WordConverter) (hnew : WordConverter.new source target dictStream = .ok wc) :
    (∀ c, c ∈ wc.markCalls → c.1 < wc._dict.length ∧ c.1 < nMaxIter) ∧
    ((∃ path, wc.DoWork.2 = .ok path) ∨ wc.DoWork.2 = .error .NoPath ∨
      (wc.DoWork.2 = .error .IterationLimitExceeded ∧ nMaxIter < wc._dict.length)) ∧
    (wc._dict.length ≤ nMaxIter → wc.DoWork.2 ≠ .error .IterationLimitExceeded) := by
  have hsrc := new_ok_source_lt hnew
  have hcases : (∃ path, wc.DoWork.2 = .ok path) ∨ wc.DoWork.2 = .error .NoPath ∨
      (wc.DoWork.2 = .error .IterationLimitExceeded ∧ nMaxIter < wc._dict.length) := by
    rcases DoWork_cases wc hsrc with ⟨K, w, _, _, _, _, h⟩ | ⟨K, w, _, _, _, _, h⟩ | ⟨w, hinv, h⟩
    · exact Or.inl ⟨_, h⟩
    · exact Or.inr (Or.inl h)
    · exact Or.inr (Or.inr ⟨h, hinv.depth_lt_length⟩)
  refine ⟨?_, hcases, ?_⟩
  · intro c hc
    obtain ⟨he, -, hlt⟩ := Entry.of_mem_doWorkCalls nMaxIter 0 _ _ (Entry.at_start wc._dict hsrc) c hc
    exact ⟨he.inv.depth_lt_length, by omega⟩
  · intro hn hlim
    rcases hcases with ⟨path, h⟩ | h | ⟨-, h⟩
    · rw [h] at hlim
      cases hlim
    · rw [h] at hlim
      cases hlim
    · omega

/-- C13 (concrete scenario). With the word list КОТ, ТОН, НОТА, КОТЫ, РОТ,
РОТА, ТОТ of `Test::basic` the filtered dictionary has exactly the 4 words
КОТ, РОТ, ТОН, ТОТ, and `DoWork` returns КОТ, ТОТ, ТОН from КОТ to ТОН,
КОТ, ТОТ from КОТ to ТОТ, and КОТ from КОТ to КОТ. -/
theorem concrete_scenario :
    fillDictionary basicDict wordKOT.length = [wordKOT, wordPOT, wordTOH, wordTOT] ∧
    (fillDictionary basicDict wordKOT.length).length = 4 ∧
    run wordKOT wordTOH basicDict = .ok [wordKOT, wordTOT, wordTOH] ∧
    run wordKOT wordTOT basicDict = .ok [wordKOT, wordTOT] ∧
    run wordKOT wordKOT basicDict = .ok [wordKOT] :=
  ⟨by rfl, by rfl, by rfl, by rfl, by rfl⟩

/-! ## The wave numbers during and after the search -/

/-- The wave numbers `DoWork` leaves are depths of the search. -/
theorem doWorkLoop_sound {dict : List Word} {src tgt : Nat} :
    ∀ (remaining k : Nat) (used : List Int) (wave : List Nat), Entry dict src k used wave →
      ∀ i (d : Nat), i < dict.length →
        (doWorkLoop dict tgt remaining k used wave).1.getD i _invalidIsWordUsed = (d : Int) →
        Reach dict src d i ∧ ∀ d', d' < d → ¬ Reach dict src d' i
  | 0, _, _, _, h, i, d, hi, hd => h.pre i d hi hd
  | remaining + 1, k, used, wave, h, i, d, hi, hd => by
    rw [doWorkLoop] at hd
    by_cases hres : isResultAchieved tgt wave = true
    · simp only [hres, if_true] at hd
      exact h.inv.sound i d hi hd
    · simp only [hres, Bool.false_eq_true, if_false] at hd
      by_cases hemp : (getSimilarWords dict (markAsUsed used wave k) wave).length = 0
      · simp only [hemp, if_true] at hd
        exact h.inv.sound i d hi hd
      · simp only [hemp, if_false] at hd
        have hne : getSimilarWords dict (markAsUsed used wave k) wave ≠ [] :=
          fun hh => hemp (by rw [hh]; rfl)
        exact doWorkLoop_sound remaining (k + 1) _ _ (h.next hne) i d hi hd

/-- In a state `Entry`, the wave numbers are depths of the search also
while `markAsUsed` is at work, after `j` of its writes. -/
theorem Entry.sound_take {dict : List Word} {src k : Nat} {used : List Int} {wave : List Nat}
    (h : Entry dict src k used wave) (j : Nat) {i d : Nat} (hi : i < dict.length)
    (hd : (markAsUsed used (wave.take j) k).getD i _invalidIsWordUsed = (d : Int)) :
    Reach dict src d i ∧ ∀ d', d' < d → ¬ Reach dict src d' i := by
  rw [getD_markAsUsed] at hd
  by_cases hmem : i ∈ wave.take j
  · rw [if_pos ⟨hmem, by rw [h.length_eq]; exact hi⟩] at hd
    have hfull : (markAsUsed used wave k).getD i _invalidIsWordUsed = (d : Int) := by
      rw [getD_markAsUsed,
        if_pos ⟨List.mem_of_mem_take hmem, by rw [h.length_eq]; exact hi⟩]
      exact hd
    exact h.inv.sound i d hi hfull
  · rw [if_neg (fun hh => hmem hh.1)] at hd
    exact h.pre i d hi hd

theorem eq_of_reach_zero {dict : List Word} {src i : Nat} (h : Reach dict src 0 i) :
    i = src := by
  cases h
  rfl

theorem getD_map_of_lt {l : List Nat} {f : Nat → Word} {m : Nat} (hm : m < l.length) :
    (l.map f).getD m [] = f (l.getD m 0) := by
  rw [List.getD_eq_getElem?_getD, List.getD_eq_getElem?_getD, List.getElem?_map,
    List.getElem?_eq_getElem hm]
  rfl

/-- The path `DoWork` returns, read against the state it leaves: the path
has one word more than the wave number of the target, and the word before
position `m + 1` is the word at the index `findPrevious` gives. -/
theorem DoWork_ok_steps (wc : WordConverter) (hsrc : wc._sourceWordIndex < wc._dict.length)
    {path : List Word} (hpath : wc.DoWork.2 = .ok path) :
    ∃ K : Nat, path.length = K + 1 ∧
      wc.DoWork.1._isWordUsed.getD wc._targetWordIndex _invalidIsWordUsed = (K : Int) ∧
      ∀ m, m < K → ∃ j, j < wc._dict.length ∧
        findPrevious wc._dict wc.DoWork.1._isWordUsed (path.getD (m + 1) []) (m : Int)
          = some j ∧
        path.getD m [] = wc._dict.getD j [] := by
  rcases DoWork_cases wc hsrc with ⟨K, w, _, hinv, ht, hu, h⟩ | ⟨K, w, _, _, _, _, h⟩ | ⟨w, _, h⟩
  · rw [h] at hpath
    cases hpath
    obtain ⟨-, hwave, hprev⟩ := hinv.backIndexes_spec K wc._targetWordIndex ht hu
    have hlen := length_backIndexes wc._dict wc.DoWork.1._isWordUsed K wc._targetWordIndex
    have hget : ∀ m, m ≤ K →
        ((backIndexes wc._dict wc.DoWork.1._isWordUsed K wc._targetWordIndex).map
          (fun j => wc._dict.getD j [])).getD m []
        = wc._dict.getD
            ((backIndexes wc._dict wc.DoWork.1._isWordUsed K wc._targetWordIndex).getD m 0)
            [] := by
      intro m hm
      exact getD_map_of_lt (by rw [hlen]; omega)
    refine ⟨K, by rw [List.length_map, hlen], hu, ?_⟩
    intro m hm
    refine ⟨_, (hwave m (by omega)).1, ?_, hget m (by omega)⟩
    rw [hget (m + 1) (by omega)]
    exact hprev m hm
  · rw [h] at hpath
    cases hpath
  · rw [h] at hpath
    cases hpath

theorem countP_eq_filter_range (q : Nat → Bool) (i : Nat) : ∀ n : Nat,
    ((List.range n).filter q).countP (fun x => decide (x = i))
      = if i < n ∧ q i = true then 1 else 0
  | 0 => by simp
  | n + 1 => by
    rw [List.range_succ, List.filter_append, List.countP_append, countP_eq_filter_range q i n]
    by_cases hq : q n = true
    · by_cases hin : n = i
      · subst hin
        simp [hq]
      · have : ¬ i = n := fun h => hin h.symm
        by_cases hlt : i < n
        · simp [hq, hin, hlt, Nat.lt_succ_of_lt hlt]
        · have : ¬ i < n + 1 := by omega
          simp [hq, hin, hlt, this]
    · by_cases hlt : i < n
      · simp [hq, hlt, Nat.lt_succ_of_lt hlt]
      · by_cases hin : n = i
        · subst hin
          simp [hq]
        · have : ¬ i < n + 1 := by omega
          simp [hq, hlt, this]

/-- The index `i` stands in `getSimilarWords` once for every element of the
wave whose word is near the word of `i`. -/
theorem countP_getSimilarWords (dict : List Word) (used : List Int) (i : Nat)
    (hi : i < dict.length) (hu : used.getD i _invalidIsWordUsed = -1) :
    ∀ wave : List Nat,
      (getSimilarWords dict used wave).countP (fun x => decide (x = i))
        = wave.countP (fun f =>
            decide (wordDistance (dict.getD f []) (dict.getD i []) ≤ _maxWordDistance))
  | [] => rfl
  | f :: wave => by
    have ih := countP_getSimilarWords dict used i hi hu wave
    unfold getSimilarWords at ih ⊢
    rw [List.flatMap_cons, List.countP_append, ih, countP_eq_filter_range, List.countP_cons]
    have hne : ¬ (used.getD i _invalidIsWordUsed ≠ _invalidIsWordUsed) := by
      rw [hu]
      exact fun h => h rfl
    simp only [hne, if_false, hi, true_and, decide_eq_true_eq]
    omega

/-! ## The claims on the waves, the reconstruction and repeated runs -/

/-- C14 (wave number is depth). For a converter the constructor built: in
every state of `_isWordUsed` during `DoWork` (before, in the middle of, and
after each call of `markAsUsed`) and in the state `DoWork` leaves, an entry
`k` other than `-1` at the index `i` is the length of a shortest path from
the source index to `i` along neighbours, so only the source index has wave
0; and a returned path has one word more than the wave number of the
target. -/
theorem wave_number_is_depth (source target : Word) (dictStream : List Nat)
    (wc : WordConverter) (hnew : WordConverter.new source target dictStream = .ok wc) :
    (∀ c, c ∈ wc.markCalls → ∀ (j i k : Nat), i < wc._dict.length →
      (markAsUsed c.2.1 (c.2.2.take j) c.1).getD i _invalidIsWordUsed = (k : Int) →
      Reach wc._dict wc._sourceWordIndex k i ∧
        (∀ d, d < k → ¬ Reach wc._dict wc._sourceWordIndex d i) ∧
        (k = 0 → i = wc._sourceWordIndex)) ∧
    (∀ (i k : Nat), i < wc._dict.length →
      wc.DoWork.1._isWordUsed.getD i _invalidIsWordUsed = (k : Int) →
      Reach wc._dict wc._sourceWordIndex k i ∧
        (∀ d, d < k → ¬ Reach wc._dict wc._sourceWordIndex d i) ∧
        (k = 0 → i = wc._sourceWordIndex)) ∧
    (∀ path, wc.DoWork.2 = .ok path →
      (path.length : Int)
        = wc.DoWork.1._isWordUsed.getD wc._targetWordIndex _invalidIsWordUsed + 1) := by
  have hsrc := new_ok_source_lt hnew
  have hentry := Entry.at_start wc._dict hsrc
  refine ⟨?_, ?_, ?_⟩
  · intro c hc j i k hi hk
    obtain ⟨he, -, -⟩ := Entry.of_mem_doWorkCalls nMaxIter 0 _ _ hentry c hc
    obtain ⟨h1, h2⟩ := he.sound_take j hi hk
    exact ⟨h1, h2, fun h0 => eq_of_reach_zero (h0 ▸ h1)⟩
  · intro i k hi hk
    rw [DoWork_fst] at hk
    obtain ⟨h1, h2⟩ := doWorkLoop_sound nMaxIter 0 _ _ hentry i k hi hk
    exact ⟨h1, h2, fun h0 => eq_of_reach_zero (h0 ▸ h1)⟩
  · intro path hpath
    obtain ⟨K, hlen, hu, -⟩ := DoWork_ok_steps wc hsrc hpath
    rw [hlen, hu]
    rfl

/-- C15 (first discovery wins). For a converter the constructor built and
every call `markAsUsed(waveWords, k)` of `DoWork`: every index of the wave
holds `-1` right before the call; an entry that is set before the call is
left as it is by the call and until `DoWork` ends; every index of the wave
holds `k` when `DoWork` ends; and two calls with different wave numbers have
no index in common. -/
theorem first_discovery_wins (source target : Word) (dictStream : List Nat)
    (wc : WordConverter) (hnew : WordConverter.new source target dictStream = .ok wc) :
    (∀ c, c ∈ wc.markCalls →
      (∀ i, i ∈ c.2.2 → c.2.1.getD i _invalidIsWordUsed = -1) ∧
      (∀ i, c.2.1.getD i _invalidIsWordUsed ≠ -1 →
        (markAsUsed c.2.1 c.2.2 c.1).getD i _invalidIsWordUsed
            = c.2.1.getD i _invalidIsWordUsed ∧
          wc.DoWork.1._isWordUsed.getD i _invalidIsWordUsed
            = c.2.1.getD i _invalidIsWordUsed) ∧
      (∀ i, i ∈ c.2.2 → wc.DoWork.1._isWordUsed.getD i _invalidIsWordUsed = (c.1 : Int))) ∧
    (∀ c₁ c₂, c₁ ∈ wc.markCalls → c₂ ∈ wc.markCalls → c₁.1 ≠ c₂.1 →
      ∀ i, i ∈ c₁.2.2 → i ∉ c₂.2.2) := by
  have hsrc := new_ok_source_lt hnew
  have hentry := Entry.at_start wc._dict hsrc
  constructor
  · intro c hc
    obtain ⟨he, -, -⟩ := Entry.of_mem_doWorkCalls nMaxIter 0 _ _ hentry c hc
    obtain ⟨hkeep, hwave⟩ := doWorkLoop_final nMaxIter 0 _ _ hentry c hc
    refine ⟨fun i hi => (he.fresh i hi).2, ?_, ?_⟩
    · intro i hi
      refine ⟨?_, ?_⟩
      · rw [getD_markAsUsed, if_neg]
        intro hh
        exact hi (he.fresh i hh.1).2
      · rw [DoWork_fst]
        exact hkeep i hi
    · intro i hi
      rw [DoWork_fst]
      exact hwave i hi
  · intro c₁ c₂ h₁ h₂ hne i hi₁ hi₂
    have e₁ := (doWorkLoop_final nMaxIter 0 _ _ hentry c₁ h₁).2 i hi₁
    have e₂ := (doWorkLoop_final nMaxIter 0 _ _ hentry c₂ h₂).2 i hi₂
    rw [e₁] at e₂
    exact hne (by omega)

/-- C16 (neighbour discovery is exact). For every visit state and every
wave, `getSimilarWords` returns indices of the dictionary only; an index `i` is returned exactly
when `_isWordUsed[i]` is `-1` and the word of some index of the wave is at
distance at most 1 of the word of `i`; and it is returned once for every
such element of the wave. -/
theorem neighbour_discovery_exact (dict : List Word) (isWordUsed : List Int)
    (frontier : List Nat) :
    (∀ i, i ∈ getSimilarWords dict isWordUsed frontier → i < dict.length) ∧
    (∀ i, i < dict.length →
      (i ∈ getSimilarWords dict isWordUsed frontier ↔
        isWordUsed.getD i _invalidIsWordUsed = -1 ∧
          ∃ f, f ∈ frontier ∧ wordDistance (dict.getD f []) (dict.getD i []) ≤ 1)) ∧
    (∀ i, i < dict.length → isWordUsed.getD i _invalidIsWordUsed = -1 →
      (getSimilarWords dict isWordUsed frontier).countP (fun x => decide (x = i))
        = frontier.countP (fun f =>
            decide (wordDistance (dict.getD f []) (dict.getD i []) ≤ 1))) := by
  refine ⟨fun i hi => (mem_getSimilarWords.1 hi).1, ?_, ?_⟩
  · intro i hi
    constructor
    · intro hmem
      obtain ⟨-, h2, f, hf, hadj⟩ := mem_getSimilarWords.1 hmem
      exact ⟨h2, f, hf, hadj⟩
    · rintro ⟨h2, f, hf, hadj⟩
      exact mem_getSimilarWords.2 ⟨hi, h2, f, hf, hadj⟩
  · intro i hi hu
    exact countP_getSimilarWords dict isWordUsed i hi hu frontier

/-- C17 (reconstruction never misses a predecessor). No run ends with the
out-of-range read of `getResult` (`ReconstructionInvariantViolation`); and
when `DoWork` returns a path, for every position `i` above 0 the backward
scan for the word at position `i` finds an index `j` with wave number
`i - 1` whose word is at distance at most 1. -/
theorem reconstruction_finds_predecessor (source target : Word) (dictStream : List Nat) :
    run source target dictStream ≠ .error .ReconstructionInvariantViolation ∧
    ∀ wc, WordConverter.new source target dictStream = .ok wc →
      wc.DoWork.2 ≠ .error .ReconstructionInvariantViolation ∧
      ∀ path, wc.DoWork.2 = .ok path → ∀ i, 0 < i → i < path.length →
        ∃ j, findPrevious wc._dict wc.DoWork.1._isWordUsed (path.getD i []) ((i : Int) - 1)
            = some j ∧
          j < wc._dict.length ∧
          wc.DoWork.1._isWordUsed.getD j _invalidIsWordUsed = (i : Int) - 1 ∧
          wordDistance (path.getD i []) (wc._dict.getD j []) ≤ 1 := by
  have hwc : ∀ wc, WordConverter.new source target dictStream = .ok wc →
      wc.DoWork.2 ≠ .error .ReconstructionInvariantViolation := by
    intro wc hnew hbad
    rcases DoWork_cases wc (new_ok_source_lt hnew) with
      ⟨K, w, _, _, _, _, h⟩ | ⟨K, w, _, _, _, _, h⟩ | ⟨w, _, h⟩
    · rw [h] at hbad
      cases hbad
    · rw [h] at hbad
      cases hbad
    · rw [h] at hbad
      cases hbad
  constructor
  · intro hbad
    rcases new_cases source target dictStream with he | he | ⟨src, tgt, -, -, -, hnew⟩
    · rw [run_of_new_error he] at hbad
      cases hbad
    · rw [run_of_new_error he] at hbad
      cases hbad
    · rw [run_of_new_ok hnew] at hbad
      exact hwc _ hnew hbad
  · intro wc hnew
    refine ⟨hwc wc hnew, ?_⟩
    intro path hpath i hi0 hi
    obtain ⟨K, hlen, -, hsteps⟩ := DoWork_ok_steps wc (new_ok_source_lt hnew) hpath
    obtain ⟨m, rfl⟩ : ∃ m, i = m + 1 := ⟨i - 1, by omega⟩
    obtain ⟨j, hj, hfind, -⟩ := hsteps m (by omega)
    have hcast : (((m + 1 : Nat) : Int) - 1) = (m : Int) := by omega
    rw [hcast]
    obtain ⟨-, h2, h3⟩ := findPrevious_some hfind
    exact ⟨j, hfind, hj, h2, h3⟩

/-- C18 (tie-break). In a path `DoWork` returns, the word at position
`i - 1`, for `i` above 0, is the word at the smallest index of the
dictionary whose recorded wave number is `i - 1` and whose word is at
distance at most 1 of the word at position `i`. -/
theorem tie_break (source target : Word) (dictStream : List Nat) (wc : WordConverter)
    (hnew : WordConverter.new source target dictStream = .ok wc) (path : List Word)
    (hpath : wc.DoWork.2 = .ok path) (i : Nat) (hi0 : 0 < i) (hi : i < path.length) :
    ∃ j, j < wc._dict.length ∧ path.getD (i - 1) [] = wc._dict.getD j [] ∧
      wc.DoWork.1._isWordUsed.getD j _invalidIsWordUsed = (i : Int) - 1 ∧
      wordDistance (path.getD i []) (wc._dict.getD j []) ≤ 1 ∧
      ∀ j', j' < j →
        ¬ (wc.DoWork.1._isWordUsed.getD j' _invalidIsWordUsed = (i : Int) - 1 ∧
          wordDistance (path.getD i []) (wc._dict.getD j' []) ≤ 1) := by
  obtain ⟨K, hlen, -, hsteps⟩ := DoWork_ok_steps wc (new_ok_source_lt hnew) hpath
  obtain ⟨m, rfl⟩ : ∃ m, i = m + 1 := ⟨i - 1, by omega⟩
  obtain ⟨j, hj, hfind, hword⟩ := hsteps m (by omega)
  have hcast : (((m + 1 : Nat) : Int) - 1) = (m : Int) := by omega
  rw [hcast, Nat.add_sub_cancel]
  obtain ⟨-, h2, h3⟩ := findPrevious_some hfind
  exact ⟨j, hj, hword, h2, h3, findPrevious_first hfind⟩

/-- C19 (order independence). Two word lists whose lines are the same up to
their order give the same converter or the same error of the constructor,
and the same outcome of `DoWork`: the same path or the same error. -/
theorem order_independence (source target : Word) (dictStream₁ dictStream₂ : List Nat)
    (hperm : List.Perm (readLines dictStream₁) (readLines dictStream₂)) :
    WordConverter.new source target dictStream₁ = WordConverter.new source target dictStream₂ ∧
      run source target dictStream₁ = run source target dictStream₂ := by
  have hnew : WordConverter.new source target dictStream₁
      = WordConverter.new source target dictStream₂ := by
    unfold WordConverter.new
    rw [fillDictionary_congr hperm]
  refine ⟨hnew, ?_⟩
  unfold run
  rw [hnew]

/-- C20 (fresh visit state per search). A second `DoWork()` on the same
converter gives the same outcome and leaves the same state as the first:
`DoWork` leaves `_dict`, `_sourceWordIndex` and `_targetWordIndex` as they
are, and starts from `_isWordUsed` reset to `-1` at every index, whatever
it held, making the same calls of `markAsUsed`. -/
theorem fresh_visit_state (wc : WordConverter) :
    wc.DoWork.1.DoWork.2 = wc.DoWork.2 ∧
    wc.DoWork.1.DoWork.1 = wc.DoWork.1 ∧
    wc.DoWork.1._dict = wc._dict ∧
    wc.DoWork.1._sourceWordIndex = wc._sourceWordIndex ∧
    wc.DoWork.1._targetWordIndex = wc._targetWordIndex ∧
    wc.DoWork.1.markCalls = wc.markCalls ∧
    (∀ used : List Int, ({ wc with _isWordUsed := used } : WordConverter).DoWork = wc.DoWork) ∧
    (∀ c, wc.markCalls.head? = some c →
      c.2.1 = List.replicate wc._dict.length (-1)) := by
  refine ⟨rfl, rfl, rfl, rfl, rfl, rfl, fun _ => rfl, ?_⟩
  intro c hc
  unfold WordConverter.markCalls nMaxIter at hc
  rw [show (10000 : Nat) = 9999 + 1 from rfl, doWorkCalls] at hc
  simp only [List.head?_cons, Option.some.injEq] at hc
  rw [← hc]

/-! ## The later claims at concrete inputs -/

/-- C11, amended, at the word list cot, cat, cat from cot to cat: the word cat
stands twice in the dictionary, as it does in the word list. -/
theorem dictionary_multiplicity_witness :
    ([[99, 97, 116], [99, 97, 116], [99, 111, 116]] : List Word).countP
        (fun x => decide (x = [99, 97, 116]))
      = ((readLines [99, 111, 116, 10, 99, 97, 116, 10, 99, 97, 116]).filter
          (fun line => decide (line.length = ([99, 111, 116] : Word).length))).countP
            (fun x => decide (x = [99, 97, 116])) :=
  (dictionary_multiplicity [99, 111, 116] [99, 97, 116]
    [99, 111, 116, 10, 99, 97, 116, 10, 99, 97, 116]
    { _dict := [[99, 97, 116], [99, 97, 116], [99, 111, 116]], _isWordUsed := [],
      _sourceWordIndex := 2, _targetWordIndex := 0 } (by rfl)).1 [99, 97, 116]

/-- C12, amended, at the word list cat, cot, dog from cat to dog: three words,
so no `IterationLimitExceeded`. -/
theorem termination_within_dictionary_witness :
    (WordConverter.DoWork
      { _dict := [[99, 97, 116], [99, 111, 116], [100, 111, 103]], _isWordUsed := [],
        _sourceWordIndex := 0, _targetWordIndex := 2 }).2
      ≠ .error .IterationLimitExceeded :=
  (termination_within_dictionary [99, 97, 116] [100, 111, 103]
    [99, 97, 116, 10, 99, 111, 116, 10, 100, 111, 103]
    { _dict := [[99, 97, 116], [99, 111, 116], [100, 111, 103]], _isWordUsed := [],
      _sourceWordIndex := 0, _targetWordIndex := 2 } (by rfl)).2.2 (by decide)

/-- C14 at the word list cat, cot, cog from cat to cog: the index 2, of cog,
is left with the wave number 2, its depth. -/
theorem wave_number_is_depth_witness :
    Reach [[99, 97, 116], [99, 111, 103], [99, 111, 116]] 0 2 1 ∧
      (∀ d, d < 2 → ¬ Reach [[99, 97, 116], [99, 111, 103], [99, 111, 116]] 0 d 1) ∧
      (2 = 0 → 1 = 0) :=
  (wave_number_is_depth [99, 97, 116] [99, 111, 103]
    [99, 97, 116, 10, 99, 111, 116, 10, 99, 111, 103]
    { _dict := [[99, 97, 116], [99, 111, 103], [99, 111, 116]], _isWordUsed := [],
      _sourceWordIndex := 0, _targetWordIndex := 1 } (by rfl)).2.1 1 2 (by decide) (by rfl)

/-- C15 at the word list cat, cot, cog from cat to cog, for the second call of
`markAsUsed`, of the wave of cot at the wave number 1. -/
theorem first_discovery_wins_witness :
    (∀ i, i ∈ [2] → ([0, -1, -1] : List Int).getD i _invalidIsWordUsed = -1) ∧
    (∀ i, ([0, -1, -1] : List Int).getD i _invalidIsWordUsed ≠ -1 →
      (markAsUsed [0, -1, -1] [2] 1).getD i _invalidIsWordUsed
          = ([0, -1, -1] : List Int).getD i _invalidIsWordUsed ∧
        (WordConverter.DoWork
          { _dict := [[99, 97, 116], [99, 111, 103], [99, 111, 116]], _isWordUsed := [],
            _sourceWordIndex := 0, _targetWordIndex := 1 }).1._isWordUsed.getD i
              _invalidIsWordUsed
          = ([0, -1, -1] : List Int).getD i _invalidIsWordUsed) ∧
    (∀ i, i ∈ [2] →
      (WordConverter.DoWork
        { _dict := [[99, 97, 116], [99, 111, 103], [99, 111, 116]], _isWordUsed := [],
          _sourceWordIndex := 0, _targetWordIndex := 1 }).1._isWordUsed.getD i
            _invalidIsWordUsed = ((1 : Nat) : Int)) :=
  (first_discovery_wins [99, 97, 116] [99, 111, 103]
    [99, 97, 116, 10, 99, 111, 116, 10, 99, 111, 103]
    { _dict := [[99, 97, 116], [99, 111, 103], [99, 111, 116]], _isWordUsed := [],
      _sourceWordIndex := 0, _targetWordIndex := 1 } (by rfl)).1 (1, [0, -1, -1], [2])
    (by decide)

/-- C16 at the dictionary cat, cot, cog, the visit state 0, -1, -1 and the
wave of cat: only the index 1, of cot, is returned. -/
theorem neighbour_discovery_exact_witness :
    (1 ∈ getSimilarWords [[99, 97, 116], [99, 111, 116], [99, 111, 103]] [0, -1, -1] [0] ↔
      ([0, -1, -1] : List Int).getD 1 _invalidIsWordUsed = -1 ∧
        ∃ f, f ∈ [0] ∧
          wordDistance
            (([[99, 97, 116], [99, 111, 116], [99, 111, 103]] : List Word).getD f [])
            (([[99, 97, 116], [99, 111, 116], [99, 111, 103]] : List Word).getD 1 []) ≤ 1) :=
  (neighbour_discovery_exact [[99, 97, 116], [99, 111, 116], [99, 111, 103]] [0, -1, -1]
    [0]).2.1 1 (by decide)

/-- C17 at the word list cat, cot, cog from cat to cog. -/
theorem reconstruction_finds_predecessor_witness :
    run [99, 97, 116] [99, 111, 103] [99, 97, 116, 10, 99, 111, 116, 10, 99, 111, 103]
      ≠ .error .ReconstructionInvariantViolation :=
  (reconstruction_finds_predecessor [99, 97, 116] [99, 111, 103]
    [99, 97, 116, 10, 99, 111, 116, 10, 99, 111, 103]).1

/-- C18 at the word list cat, cog, cot, cag from cat to cog, at position 2:
both cag (index 0) and cot (index 3) have wave number 1 and are near cog,
and the path holds cag. -/
theorem tie_break_witness :
    ∃ j, j < 4 ∧ ([99, 97, 103] : Word)
        = ([[99, 97, 103], [99, 97, 116], [99, 111, 103], [99, 111, 116]] : List Word).getD j []
      ∧ j = 0 :=
  have h := tie_break [99, 97, 116] [99, 111, 103]
    [99, 97, 116, 10, 99, 111, 103, 10, 99, 111, 116, 10, 99, 97, 103]
    { _dict := [[99, 97, 103], [99, 97, 116], [99, 111, 103], [99, 111, 116]],
      _isWordUsed := [], _sourceWordIndex := 1, _targetWordIndex := 2 } (by rfl)
    [[99, 97, 116], [99, 97, 103], [99, 111, 103]] (by rfl) 2 (by decide) (by decide)
  match h with
  | ⟨j, h1, h2, _, _, h5⟩ =>
    ⟨j, h1, h2, Nat.eq_zero_of_not_pos (fun hpos => h5 0 hpos ⟨by rfl, by decide⟩)⟩

/-- C19 at the word lists cat, cot and cot, cat. -/
theorem order_independence_witness :
    WordConverter.new [99, 97, 116] [99, 111, 116] [99, 97, 116, 10, 99, 111, 116]
        = WordConverter.new [99, 97, 116] [99, 111, 116] [99, 111, 116, 10, 99, 97, 116] ∧
      run [99, 97, 116] [99, 111, 116] [99, 97, 116, 10, 99, 111, 116]
        = run [99, 97, 116] [99, 111, 116] [99, 111, 116, 10, 99, 97, 116] :=
  order_independence [99, 97, 116] [99, 111, 116] [99, 97, 116, 10, 99, 111, 116]
    [99, 111, 116, 10, 99, 97, 116]
    (List.Perm.swap ([99, 111, 116] : Word) [99, 97, 116] [])

end WordLadder
